import Mathlib

/-!
# Verification of the crawl4ai-scraper content pipeline

Shallow embedding, over `List Char` strings, of the algorithmic core of the
repository: the URL wildcard pattern matcher (`src/crawler.py`,
`URLPatternHandler`), URL normalization and BFS discovery (`URLDiscovery`),
the heuristic content cleaner (`src/content_filters.py`, `ContentCleaner`
and `ConfigurableContentCleaner`), and batch crawling (`ContentCrawler`).

Python strings are modelled as `List Char`.  Python's `str.lower`,
`str.strip` and friends are modelled on their ASCII behaviour (all the
constants appearing in the source are ASCII except `'©'`, which both
Python's `lower` and `Char.toLower` leave unchanged).
-/

/-! ## Basic string helpers (Python string methods on `List Char`) -/

/-- The whitespace characters stripped by Python's `str.strip`/`rstrip`
(ASCII portion). -/
def isPySpace (c : Char) : Bool :=
  c == ' ' || c == '\t' || c == '\n' || c == '\r' || c == '\x0b' || c == '\x0c'

/-- Python `str.rstrip()`: remove trailing whitespace. -/
def rstrip : List Char → List Char
  | [] => []
  | c :: rest =>
    if (rstrip rest).isEmpty then (if isPySpace c then [] else [c])
    else c :: rstrip rest

/-- Python `str.lstrip()`: remove leading whitespace. -/
def lstrip (l : List Char) : List Char := l.dropWhile isPySpace

/-- Python `str.strip()`. -/
def pstrip (l : List Char) : List Char := rstrip (lstrip l)

/-- Python `str.lower()` (ASCII). -/
def plower (l : List Char) : List Char := l.map Char.toLower

/-- Count occurrences of a single character (Python `s.count(c)` for a
one-character needle). -/
def countChar (c : Char) (l : List Char) : Nat := (l.filter (· == c)).length

/-- Non-overlapping occurrence count of a (non-empty) substring, scanning
left to right, as Python `s.count(sub)` does.  (The empty needle, which the
source never uses, is treated as matching nowhere.)  Structured with an
explicit step budget so the kernel can evaluate it; every step consumes at
least one character, so a budget of `l.length` is never exhausted. -/
def countSubFuel (pat : List Char) : Nat → List Char → Nat
  | 0, _ => 0
  | _ + 1, [] => 0
  | fuel + 1, c :: rest =>
    if pat ≠ [] ∧ pat.isPrefixOf (c :: rest) then
      countSubFuel pat fuel ((c :: rest).drop pat.length) + 1
    else
      countSubFuel pat fuel rest

/-- `s.count(sub)`. -/
def countSub (pat : List Char) (l : List Char) : Nat := countSubFuel pat l.length l

/-- Python's substring test `pat in s`. -/
def hasSub : List Char → List Char → Bool
  | l, pat =>
    pat.isPrefixOf l ||
      match l with
      | [] => false
      | _ :: t => hasSub t pat

/-- Python `s.replace(old, new)` for a non-empty `old`, left to right,
non-overlapping.  (The empty needle, which the source never uses, replaces
nothing.) -/
def replaceAll (old new : List Char) : List Char → List Char
  | [] => []
  | c :: rest =>
    if h : old ≠ [] ∧ old.isPrefixOf (c :: rest) then
      new ++ replaceAll old new ((c :: rest).drop old.length)
    else
      c :: replaceAll old new rest
termination_by l => l.length
decreasing_by
  · have : 1 ≤ old.length := List.length_pos.mpr h.1
    simp only [List.length_drop, List.length_cons]
    omega
  · simp

/-! ## URL wildcard pattern matching

`URLPatternHandler.convert_wildcard_to_regex` (src/crawler.py:83-109)
escapes the regex metacharacters `. + ^ $ ( ) [ ] { }` (making them plain
literals), then turns `**` into `.*`, each remaining `*` into `[^/]*` and
`?` into `.`, and anchors the result as `^pattern$`.  `re.match` against
that fully-anchored regex is the full-match relation below.  We embed the
compiled regex as a token list: every non-wildcard character is a literal
(which is exactly what the escaping achieves), `**` — replaced first, left
to right and non-overlapping — matches any characters, `*` matches any
characters except `/`, and `?` matches a single character.  (Characters
such as `|` or a backslash, which the converter fails to escape, do not
occur in the patterns the claims are about.) -/

inductive WTok where
  | lit (c : Char)
  | anyNoSlash
  | anyAll
  | anyOne
deriving DecidableEq

/-- Tokenize a wildcard pattern the way `convert_wildcard_to_regex` does:
`**` (leftmost, non-overlapping) before `*`, then `?`; everything else is a
literal. -/
def tokenizePattern : List Char → List WTok
  | '*' :: '*' :: rest => WTok.anyAll :: tokenizePattern rest
  | '*' :: rest => WTok.anyNoSlash :: tokenizePattern rest
  | '?' :: rest => WTok.anyOne :: tokenizePattern rest
  | c :: rest => WTok.lit c :: tokenizePattern rest
  | [] => []

/-- All suffixes of a string (the residues `.*` can leave). -/
def tailsOf : List Char → List (List Char)
  | [] => [[]]
  | c :: t => (c :: t) :: tailsOf t

/-- The suffixes obtained by removing a slash-free prefix (the residues
`[^/]*` can leave). -/
def noSlashSuffixes : List Char → List (List Char)
  | [] => [[]]
  | c :: t => (c :: t) :: (if c == '/' then [] else noSlashSuffixes t)

/-- Full-match of a compiled wildcard pattern against a string: the
semantics of the anchored regex produced by `convert_wildcard_to_regex`
(`.*` consumes any prefix, `[^/]*` consumes any slash-free prefix, `.` one
character, a literal itself). -/
def wMatch : List WTok → List Char → Bool
  | [], s => s.isEmpty
  | WTok.lit c :: ts, s =>
    match s with
    | [] => false
    | d :: s' => d == c && wMatch ts s'
  | WTok.anyOne :: ts, s =>
    match s with
    | [] => false
    | _ :: s' => wMatch ts s'
  | WTok.anyAll :: ts, s => (tailsOf s).any (fun s' => wMatch ts s')
  | WTok.anyNoSlash :: ts, s => (noSlashSuffixes s).any (fun s' => wMatch ts s')

/-- `re.match(convert_wildcard_to_regex(pattern), url)` as a boolean. -/
def matchesPattern (pattern url : List Char) : Bool :=
  wMatch (tokenizePattern pattern) url

/-- `URLPatternHandler.match_url_pattern` (src/crawler.py:111-130): check
the exclude patterns first (any match rejects), then admit if the include
list is empty or some include pattern matches.  A `None` exclude list in
Python behaves like the empty list. -/
def matchUrlPattern (url : List Char) (patterns excludePatterns : List (List Char)) : Bool :=
  if excludePatterns.any (fun p => matchesPattern p url) then false
  else if patterns.isEmpty then true
  else patterns.any (fun p => matchesPattern p url)

/-- C2: `match_url_pattern` returns true iff the URL matches no exclude
pattern and (the include list is empty or some include pattern matches);
in particular an exclude match rejects the URL even when an include
pattern also matches, because exclusion is evaluated first. -/
theorem c2_match_url_pattern_iff (url : List Char)
    (patterns excludePatterns : List (List Char)) :
    matchUrlPattern url patterns excludePatterns = true ↔
      ((∀ p ∈ excludePatterns, matchesPattern p url = false) ∧
        (patterns = [] ∨ ∃ p ∈ patterns, matchesPattern p url = true)) := by
  unfold matchUrlPattern
  by_cases hex : excludePatterns.any (fun p => matchesPattern p url) = true
  · rw [if_pos hex]
    simp only [List.any_eq_true] at hex
    obtain ⟨p, hp, hm⟩ := hex
    constructor
    · intro h; cases h
    · rintro ⟨hall, -⟩
      rw [hall p hp] at hm
      cases hm
  · rw [if_neg hex]
    have hall : ∀ p ∈ excludePatterns, matchesPattern p url = false := by
      intro p hp
      cases hmp : matchesPattern p url
      · rfl
      · exact absurd (List.any_eq_true.mpr ⟨p, hp, hmp⟩) hex
    by_cases hpe : patterns.isEmpty = true
    · rw [if_pos hpe]
      exact ⟨fun _ => ⟨hall, Or.inl (List.isEmpty_iff.mp hpe)⟩, fun _ => rfl⟩
    · rw [if_neg hpe]
      rw [List.any_eq_true]
      constructor
      · intro h
        exact ⟨hall, Or.inr h⟩
      · rintro ⟨-, h | h⟩
        · subst h
          simp at hpe
        · exact h

/-- C6 counterexample: contrary to the claim, the compiled pattern
`*/blog/**` does NOT match `https://x.com/a/blog/2024/post`: the single
`*` compiles to `[^/]*` and cannot cross the slashes of `https://`, so the
required literal `/blog/` would have to start at the URL's first slash. -/
theorem c6_counterexample :
    matchesPattern ("*/blog/**".data) ("https://x.com/a/blog/2024/post".data) = false := by
  decide

/-- C6 (amended): under the converter's wildcard semantics (`*` never
matches `/`), the compiled pattern `*/blog/**` matches NEITHER
`https://x.com/a/blog/2024/post` (the prefix before `/blog/` contains
slashes) NOR `https://x.com/blog` (no `/blog/` with a trailing segment);
a scheme-less URL such as `x.com/blog/2024/post` is matched. -/
theorem c6_wildcard_conversion :
    matchesPattern ("*/blog/**".data) ("https://x.com/a/blog/2024/post".data) = false ∧
    matchesPattern ("*/blog/**".data) ("https://x.com/blog".data) = false ∧
    matchesPattern ("*/blog/**".data) ("x.com/blog/2024/post".data) = true := by
  refine ⟨by decide, by decide, by decide⟩

/-! ## Line structure and whitespace normalization

`ContentCleaner._clean_whitespace` (src/content_filters.py:328-342):
collapse runs of 3+ newlines to 2 (`re.sub(r'\n{3,}', '\n\n', ...)`),
right-strip every line of `content.split('\n')`, pop whitespace-only lines
from the front and back, and re-join with newlines. -/

/-- `s.split('\n')`: always returns one more line than there are newlines. -/
def splitNl : List Char → List (List Char)
  | [] => [[]]
  | c :: rest =>
    if c == '\n' then [] :: splitNl rest
    else
      match splitNl rest with
      | l :: ls => (c :: l) :: ls
      | [] => [[c]]

/-- `'\n'.join(lines)`. -/
def joinNl : List (List Char) → List Char
  | [] => []
  | [l] => l
  | l :: ls => l ++ '\n' :: joinNl ls

/-- `re.sub(r'\n{3,}', '\n\n', content)`: greedy `{3,}` collapses every
maximal run of `k ≥ 3` newlines to exactly two, so the rewrite keeps the
first two newlines of every run and drops the rest.  `k` counts the
newlines of the current run already kept. -/
def collapseNlAux : Nat → List Char → List Char
  | _, [] => []
  | k, c :: rest =>
    if c == '\n' then
      (if k < 2 then c :: collapseNlAux (k + 1) rest else collapseNlAux k rest)
    else c :: collapseNlAux 0 rest

/-- `re.sub(r'\n{3,}', '\n\n', content)`. -/
def collapseNl (l : List Char) : List Char := collapseNlAux 0 l

/-- A line that Python's `not line.strip()` treats as blank. -/
def isBlankLine (l : List Char) : Bool := l.all isPySpace

/-- Pop blank lines from the front and the back of the line list
(the two `while` loops of `_clean_whitespace`). -/
def stripBlankEnds (ls : List (List Char)) : List (List Char) :=
  ((ls.dropWhile isBlankLine).reverse.dropWhile isBlankLine).reverse

/-- `ContentCleaner._clean_whitespace` (src/content_filters.py:328-342). -/
def cleanWhitespace (s : List Char) : List Char :=
  joinNl (stripBlankEnds ((splitNl (collapseNl s)).map rstrip))

/-! ## Run-on line repair (src/content_filters.py:79-98)

When a document has fewer than 10 real newlines but more than 500
characters, `clean_markdown_content` applies three `re.sub` rewrites.  Each
is embedded as a left-to-right scanner that carries the character
preceding the current position (for the lookbehinds; `none` at the start
of the string, where a negative lookbehind is vacuously satisfied). -/

/-- `re.sub(r'(?<![eg])(?<![ie])\. ([A-Z])', r'.\n\n\1', markdown)`
(line 82).  The two one-character-class lookbehinds require the character
immediately before the period to be none of `e`, `g`, `i`; on a match the
period, two newlines and the capital are emitted and scanning resumes
after the capital. -/
def sentenceFix : Option Char → List Char → List Char
  | _, [] => []
  | prev, '.' :: ' ' :: c :: rest =>
    if c.isUpper && !(prev == some 'e' || prev == some 'g' || prev == some 'i') then
      '.' :: '\n' :: '\n' :: c :: sentenceFix (some c) rest
    else
      '.' :: sentenceFix (some '.') (' ' :: c :: rest)
  | _, c :: rest => c :: sentenceFix (some c) rest

/-- Match one admonition/section keyword, then `\s+`, at the head of the
string; returns the remainder after the whitespace run.  Helper for the
two keyword rewrites below. -/
def matchKwWs (kw l : List Char) : Option (List Char) :=
  if kw.isPrefixOf l then
    let r := l.drop kw.length
    let ws := r.takeWhile isPySpace
    if ws.isEmpty then none else some (r.drop ws.length)
  else none

theorem matchKwWs_length {kw l r : List Char} (h : matchKwWs kw l = some r) :
    r.length ≤ l.length := by
  unfold matchKwWs at h
  by_cases hp : kw.isPrefixOf l
  · rw [if_pos hp] at h
    by_cases hw : ((l.drop kw.length).takeWhile isPySpace).isEmpty
    · rw [if_pos hw] at h; cases h
    · rw [if_neg hw] at h
      injection h with h
      subst h
      simp only [List.length_drop]
      omega
  · rw [if_neg hp] at h; cases h

/-- `Tip|Note|Warning|Important|Caution`, in alternation order. -/
def admonitionKeywords : List (List Char) :=
  ["Tip", "Note", "Warning", "Important", "Caution"].map String.data

/-- Try `keyword\s+[A-Z]` at the head of `l`; on success return the
keyword, the capital, and the remainder after the capital. -/
def tryAdmonition : List (List Char) → List Char → Option (List Char × Char × List Char)
  | [], _ => none
  | kw :: kws, l =>
    match matchKwWs kw l with
    | some r =>
      match r with
      | c :: rest => if c.isUpper then some (kw, c, rest) else tryAdmonition kws l
      | [] => tryAdmonition kws l
    | none => tryAdmonition kws l

theorem tryAdmonition_length {kws : List (List Char)} {l kw : List Char} {c : Char}
    {rest : List Char} (h : tryAdmonition kws l = some (kw, c, rest)) :
    rest.length < l.length := by
  induction kws with
  | nil => cases h
  | cons k ks ih =>
    unfold tryAdmonition at h
    split at h
    next r heq =>
      split at h
      next c' rest' =>
        split at h
        next hu =>
          simp only [Option.some.injEq, Prod.mk.injEq] at h
          obtain ⟨-, -, h3⟩ := h
          subst h3
          have := matchKwWs_length heq
          simp only [List.length_cons] at this
          omega
        next => exact ih h
      next => exact ih h
    next => exact ih h

/-- `re.sub(r'(?<!\n)(Tip|Note|Warning|Important|Caution)\s+([A-Z])',
r'\n\n**\1:** \2', markdown)` (line 85). -/
def noteFixFuel : Nat → Option Char → List Char → List Char
  | 0, _, l => l
  | _ + 1, _, [] => []
  | fuel + 1, prev, c :: rest =>
    match (if prev == some '\n' then none else tryAdmonition admonitionKeywords (c :: rest)) with
    | some (kw, cap, rest') =>
      '\n' :: '\n' :: '*' :: '*' ::
        (kw ++ ':' :: '*' :: '*' :: ' ' :: cap :: noteFixFuel fuel (some cap) rest')
    | none => c :: noteFixFuel fuel (some c) rest

/-- The admonition rewrite, with a sufficient step budget (every step
consumes at least one input character, cf. `tryAdmonition_length`). -/
def noteFix (prev : Option Char) (l : List Char) : List Char :=
  noteFixFuel l.length prev l

/-- `Using|Creating|Configuring|Setting up|Installing|Troubleshooting|
Managing|Building|Deploying`, in alternation order. -/
def sectionKeywords : List (List Char) :=
  ["Using", "Creating", "Configuring", "Setting up", "Installing",
   "Troubleshooting", "Managing", "Building", "Deploying"].map String.data

/-- The lazy `([^.]*?)(?=\s[A-Z])` part of the section-heading rewrite:
consume as few non-period characters as possible until the next two
characters are whitespace followed by a capital; fail on a period or at
end of input.  Returns the consumed characters and the remainder (the
lookahead is not consumed). -/
def lazySpanToWsUpper : List Char → Option (List Char × List Char)
  | [] => none
  | c :: rest =>
    if (match c :: rest with
        | a :: b :: _ => isPySpace a && b.isUpper
        | _ => false) then
      some ([], c :: rest)
    else if c == '.' then none
    else (lazySpanToWsUpper rest).map (fun p => (c :: p.1, p.2))

theorem lazySpanToWsUpper_length {l g rem : List Char}
    (h : lazySpanToWsUpper l = some (g, rem)) : rem.length ≤ l.length := by
  induction l generalizing g rem with
  | nil => cases h
  | cons c rest ih =>
    unfold lazySpanToWsUpper at h
    split at h
    · simp only [Option.some.injEq, Prod.mk.injEq] at h
      obtain ⟨-, h2⟩ := h
      subst h2
      exact le_refl _
    · split at h
      · cases h
      · cases hm : lazySpanToWsUpper rest with
        | none => rw [hm] at h; cases h
        | some p =>
          obtain ⟨g', rem'⟩ := p
          rw [hm] at h
          simp only [Option.map_some', Option.some.injEq, Prod.mk.injEq] at h
          obtain ⟨-, h2⟩ := h
          subst h2
          have := ih hm
          simp only [List.length_cons]
          omega

/-- Try one section keyword: `keyword\s+[a-z][^.]*?(?=\s[A-Z])`; returns
the keyword, the captured phrase (`[a-z][^.]*?`), and the remainder. -/
def trySection : List (List Char) → List Char → Option (List Char × List Char × List Char)
  | [], _ => none
  | kw :: kws, l =>
    match matchKwWs kw l with
    | some r =>
      match r with
      | c0 :: r2 =>
        if c0.isLower then
          match lazySpanToWsUpper r2 with
          | some (g, rem) => some (kw, c0 :: g, rem)
          | none => trySection kws l
        else trySection kws l
      | [] => trySection kws l
    | none => trySection kws l

theorem trySection_length {kws : List (List Char)} {l kw g rem : List Char}
    (h : trySection kws l = some (kw, g, rem)) : rem.length < l.length := by
  induction kws with
  | nil => cases h
  | cons k ks ih =>
    unfold trySection at h
    split at h
    next r heq =>
      split at h
      next c0 r2 =>
        split at h
        next hlo =>
          split at h
          next g' rem' hl =>
            simp only [Option.some.injEq, Prod.mk.injEq] at h
            obtain ⟨-, -, h3⟩ := h
            subst h3
            have h4 := lazySpanToWsUpper_length hl
            have h5 := matchKwWs_length heq
            simp only [List.length_cons] at h5
            omega
          next => exact ih h
        next => exact ih h
      next => exact ih h
    next => exact ih h

/-- `re.sub(r'(?<!\n)(Using|Creating|...|Deploying)\s+([a-z][^.]*?)(?=\s[A-Z])',
r'\n\n## \1 \2', markdown)` (line 88). -/
def sectionFixFuel : Nat → Option Char → List Char → List Char
  | 0, _, l => l
  | _ + 1, _, [] => []
  | fuel + 1, prev, c :: rest =>
    match (if prev == some '\n' then none else trySection sectionKeywords (c :: rest)) with
    | some (kw, g, rem) =>
      '\n' :: '\n' :: '#' :: '#' :: ' ' ::
        (kw ++ ' ' :: (g ++ sectionFixFuel fuel (some (g.getLastD ' ')) rem))
    | none => c :: sectionFixFuel fuel (some c) rest

/-- The section-heading rewrite, with a sufficient step budget (every step
consumes at least one input character, cf. `trySection_length`). -/
def sectionFix (prev : Option Char) (l : List Char) : List Char :=
  sectionFixFuel l.length prev l

/-! ## ContentCleaner pattern lists (src/content_filters.py:15-56) -/

/-- `self.nav_indicators` (order matters: `_is_substantial_paragraph` uses
the first five). -/
def baseNavIndicators : List (List Char) :=
  ["search", "menu", "navigation", "navbar", "sidebar", "breadcrumb",
   "home", "contact", "about", "login", "sign in", "sign up", "register",
   "skip to content", "skip to main", "toggle menu", "close menu"].map String.data

/-- `self.footer_indicators`. -/
def baseFooterIndicators : List (List Char) :=
  ["copyright", "©", "all rights reserved", "privacy policy", "terms of service",
   "terms of use", "cookie policy", "was this page helpful", "feedback",
   "x.com", "twitter.com", "linkedin.com", "facebook.com", "github.com",
   "on this page", "yesno", "rate this page", "improve this page",
   "last modified", "last updated", "edit this page"].map String.data

/-- `self.skip_patterns`. -/
def baseSkipPatterns : List (List Char) :=
  ["copy page", "copy link", "share this", "print this page", "bookmark",
   "loading...", "please wait", "skip to content", "toggle navigation"].map String.data

/-- The local `nav_section_starts` list of `_is_navigation_section`
(src/content_filters.py:241-246; hard-coded, independent of
`self.nav_indicators`). -/
def navSectionStarts : List (List Char) :=
  ["search", "navigation", "menu", "breadcrumb",
   "skip to", "table of contents", "getting started",
   "##### getting started", "##### build with", "##### deployment",
   "##### administration", "##### configuration", "##### reference"].map String.data

/-- The local `nav_terms` list of `_is_likely_navigation`
(src/content_filters.py:259). -/
def navTerms : List (List Char) :=
  ["overview", "quickstart", "getting started", "reference", "home"].map String.data

/-! ## ContentCleaner line predicates (src/content_filters.py:191-273) -/

/-- Python `str.split()`: whitespace-separated words, empties dropped
(step-budgeted for kernel evaluation; each step consumes at least one
character). -/
def pwordsFuel : Nat → List Char → List (List Char)
  | 0, _ => []
  | _ + 1, [] => []
  | fuel + 1, c :: rest =>
    if isPySpace c then pwordsFuel fuel rest
    else
      ((c :: rest).takeWhile (fun d => !isPySpace d)) ::
        pwordsFuel fuel (rest.dropWhile (fun d => !isPySpace d))

/-- `s.split()`. -/
def pwords (l : List Char) : List (List Char) := pwordsFuel l.length l

/-- `ContentCleaner._is_footer_line` with a configurable indicator list:
any footer indicator occurring as a substring of the lowered line. -/
def isFooterLineWith (footer : List (List Char)) (line : List Char) : Bool :=
  footer.any (fun f => hasSub (plower line) f)

/-- `ContentCleaner._should_skip_line`. -/
def shouldSkipLineWith (skip : List (List Char)) (line : List Char) : Bool :=
  skip.any (fun p => hasSub (plower line) p)

/-- `ContentCleaner._is_navigation_section` (only the line argument is
used by the body). -/
def isNavigationSection (line : List Char) : Bool :=
  navSectionStarts.any (fun p => hasSub (plower line) p)

/-- `ContentCleaner._is_likely_navigation`: dense link menus (more than 3
`[` and more than 3 `](`), or a short line (<100 chars stripped)
containing a bare navigation term. -/
def isLikelyNavigation (line : List Char) : Bool :=
  (decide (countChar '[' line > 3) && decide (countSub ("](".data) line > 3)) ||
    (navTerms.any (fun t => hasSub (plower line) t) && decide ((pstrip line).length < 100))

/-- `ContentCleaner._is_substantial_paragraph`: at least 20 characters and
4 words after stripping, and none of the first five navigation indicators
occurs in the lowered text. -/
def isSubstantialParagraphWith (nav : List (List Char)) (line : List Char) : Bool :=
  let stripped := pstrip line
  if stripped.length < 20 then false
  else if (pwords stripped).length < 4 then false
  else if (nav.take 5).any (fun n => hasSub (plower stripped) n) then false
  else true

/-- The regex `r'^\\d+\\.\\s'` of `_is_content_list`
(src/content_filters.py:219).  Written inside a raw string with doubled
backslashes, it denotes: a literal backslash, one or more `d`, a literal
backslash, any character except newline, a literal backslash, an `s` —
not the numbered-list shape `1. ` the docstring suggests. -/
def brokenNumberedMatch (l : List Char) : Bool :=
  match l with
  | '\\' :: rest =>
    let ds := rest.takeWhile (· == 'd')
    if ds.isEmpty then false
    else
      match rest.dropWhile (· == 'd') with
      | '\\' :: a :: '\\' :: 's' :: _ => a != '\n'
      | _ => false
  | _ => false

/-- `ContentCleaner._is_content_list`. -/
def isContentListWith (nav : List (List Char)) (line : List Char) : Bool :=
  let stripped := pstrip line
  if !(("- ".data).isPrefixOf stripped || ("* ".data).isPrefixOf stripped ||
      brokenNumberedMatch stripped) then false
  else if stripped.length < 10 then false
  else if nav.any (fun n => hasSub (plower stripped) n) then false
  else true

/-- The regex `r'^#{2,6}\\s+\\w'` used at src/content_filters.py:171 and in
`_is_section_heading`.  With the doubled backslashes inside a raw string
it denotes: 2 to 6 `#`, a literal backslash, one or more `s`, a literal
backslash, a `w`.  Since `#{2,6}` is followed by a literal backslash, the
run of `#` at the head must have length between 2 and 6 exactly, followed
by `\s…s\w`. -/
def brokenSectionMatch (l : List Char) : Bool :=
  let hs := l.takeWhile (· == '#')
  decide (2 ≤ hs.length) && decide (hs.length ≤ 6) &&
    (match l.dropWhile (· == '#') with
     | '\\' :: r2 =>
       !(r2.takeWhile (· == 's')).isEmpty &&
         (match r2.dropWhile (· == 's') with
          | '\\' :: 'w' :: _ => true
          | _ => false)
     | _ => false)

/-- `re.sub(r'^#{2,6}\\s+', '', line)`: when `brokenSectionMatch` holds,
remove the `#` run, the backslash and the `s` run. -/
def brokenSectionStrip (l : List Char) : List Char :=
  match l.dropWhile (· == '#') with
  | '\\' :: r2 => r2.dropWhile (· == 's')
  | r => r

/-- The `line.startswith('# ')` branch of `_is_main_content_start`
(src/content_filters.py:155-168): a level-1 heading that does not look
like a nav label, and that either overlaps the supplied title in at least
half of the title's word set, or has heading text longer than 10
characters. -/
def mainHeadingHit (line title : List Char) : Bool :=
  if ("# ".data).isPrefixOf line then
    let headingText := plower (pstrip (line.drop 2))
    if !((["home", "menu", "navigation", "page"].map String.data).any
        (fun n => hasSub headingText n)) then
      (if title.isEmpty then decide (headingText.length > 10)
       else
         let titleWords := (pwords (plower title)).dedup
         let headingWords := (pwords headingText).dedup
         if 2 * (titleWords.filter (fun w => headingWords.contains w)).length ≥
             max titleWords.length 1 then true
         else decide (headingText.length > 10))
    else false
  else false

/-- The section-heading branch of `_is_main_content_start`
(src/content_filters.py:170-175), built on the broken regex. -/
def sectionHeadingHit (nav : List (List Char)) (line : List Char) : Bool :=
  brokenSectionMatch line && decide ((pstrip line).length > 10) &&
    !(nav.any (fun n => hasSub (plower (pstrip (brokenSectionStrip line))) n))

/-- `ContentCleaner._is_main_content_start` (src/content_filters.py:147-189).
The `all_lines`/`index` arguments are unused by the body and omitted. -/
def isMainContentStartWith (nav : List (List Char)) (line title : List Char) : Bool :=
  if mainHeadingHit line title then true
  else if sectionHeadingHit nav line then true
  else if isSubstantialParagraphWith nav line then true
  else if isContentListWith nav line then true
  else if ("```".data).isPrefixOf line || ("`".data).isPrefixOf (pstrip line) then true
  else false

/-! ## Formatting enhancement (src/content_filters.py:275-326) -/

/-- `ContentCleaner._enhance_admonitions`: promote `Note:`/`Tip:`/
`Warning:`/`Important:` prefixes (and their uppercase forms) to quoted
bold admonitions, replacing every occurrence in the line as Python's
`str.replace` does. -/
def enhanceAdmonitions (line : List Char) : List Char :=
  let stripped := pstrip line
  if ("Note:".data).isPrefixOf stripped || ("NOTE:".data).isPrefixOf stripped then
    replaceAll ("NOTE:".data) ("> **Note:**".data)
      (replaceAll ("Note:".data) ("> **Note:**".data) line)
  else if ("Tip:".data).isPrefixOf stripped || ("TIP:".data).isPrefixOf stripped then
    replaceAll ("TIP:".data) ("> **Tip:**".data)
      (replaceAll ("Tip:".data) ("> **Tip:**".data) line)
  else if ("Warning:".data).isPrefixOf stripped || ("WARNING:".data).isPrefixOf stripped then
    replaceAll ("WARNING:".data) ("> **⚠️ Warning:**".data)
      (replaceAll ("Warning:".data) ("> **⚠️ Warning:**".data) line)
  else if ("Important:".data).isPrefixOf stripped || ("IMPORTANT:".data).isPrefixOf stripped then
    replaceAll ("IMPORTANT:".data) ("> **❗ Important:**".data)
      (replaceAll ("Important:".data) ("> **❗ Important:**".data) line)
  else line

/-- The character class `[^\\s]` of the link-scrubbing regexes: written
with doubled backslashes in a raw string, it excludes a backslash and the
letter `s` (not whitespace). -/
def trackAllowed (c : Char) : Bool := !(c == '\\' || c == 's')

/-- One of the two rewrites of `ContentCleaner._enhance_links`
(src/content_filters.py:320-326): `re.sub(r'(\\?utm_[^\\s]+)', '', line)`
and the analogous `ref=` pattern.  `\\?` is an optional literal backslash;
the matched text (optional backslash, tag, maximal non-empty run of
allowed characters) is deleted. -/
def scrubTrackFuel (tag : List Char) : Nat → List Char → List Char
  | 0, l => l
  | _ + 1, [] => []
  | fuel + 1, c :: rest =>
    if c == '\\' && tag.isPrefixOf rest &&
        !((rest.drop tag.length).takeWhile trackAllowed).isEmpty then
      scrubTrackFuel tag fuel ((rest.drop tag.length).dropWhile trackAllowed)
    else if tag ≠ [] ∧ tag.isPrefixOf (c :: rest) ∧
        ¬(((c :: rest).drop tag.length).takeWhile trackAllowed).isEmpty = true then
      scrubTrackFuel tag fuel (((c :: rest).drop tag.length).dropWhile trackAllowed)
    else
      c :: scrubTrackFuel tag fuel rest

/-- The scrubbing rewrite, with a sufficient step budget (each step
consumes at least one character of the remaining input). -/
def scrubTrack (tag : List Char) (l : List Char) : List Char :=
  scrubTrackFuel tag l.length l

/-- `ContentCleaner._enhance_links`: scrub `utm_` then `ref=` tracking
fragments. -/
def enhanceLinks (line : List Char) : List Char :=
  scrubTrack ("ref=".data) (scrubTrack ("utm_".data) line)

/-- `ContentCleaner.enhance_markdown_formatting`
(src/content_filters.py:275-288).  `_enhance_code_blocks` only records
state for a never-taken branch and returns the line unchanged. -/
def enhanceMarkdownFormatting (line : List Char) : List Char :=
  if (pstrip line).isEmpty then line
  else enhanceLinks (enhanceAdmonitions line)

/-! ## The line-classification loop (src/content_filters.py:100-141) -/

/-- The `for` loop of `clean_markdown_content`, with its three-flag state
(`content_started`, `skip_navigation_section`; `in_footer` only ever
causes the `break`, which ends the whole loop).  For each line, in order:
drop blank lines before content starts; stop the whole scan at the first
footer line; drop skip-pattern lines; drop navigation-section lines while
still skipping navigation; before content has started, start it at a
main-content line (also disabling navigation skipping) and drop anything
else; once content has started drop likely-navigation lines; surviving
lines are formatting-enhanced and retained. -/
def cleanLoop (nav footer skip : List (List Char)) (title : List Char) :
    Bool → Bool → List (List Char) → List (List Char)
  | _, _, [] => []
  | contentStarted, skipNav, line :: rest =>
    if !contentStarted && (pstrip line).isEmpty then
      cleanLoop nav footer skip title contentStarted skipNav rest
    else if isFooterLineWith footer (pstrip line) then
      []
    else if shouldSkipLineWith skip (pstrip line) then
      cleanLoop nav footer skip title contentStarted skipNav rest
    else if skipNav && isNavigationSection (pstrip line) then
      cleanLoop nav footer skip title contentStarted skipNav rest
    else if !contentStarted then
      (if isMainContentStartWith nav (pstrip line) title then
        (if isLikelyNavigation (pstrip line) then
          cleanLoop nav footer skip title true false rest
        else
          enhanceMarkdownFormatting line :: cleanLoop nav footer skip title true false rest)
      else
        cleanLoop nav footer skip title contentStarted skipNav rest)
    else if isLikelyNavigation (pstrip line) then
      cleanLoop nav footer skip title contentStarted skipNav rest
    else
      enhanceMarkdownFormatting line :: cleanLoop nav footer skip title contentStarted skipNav rest

/-- The condition of the escaped-newline fix (src/content_filters.py:76):
the two-character sequence `\n` occurs, and more often than real
newlines. -/
def needsEscapedNlFix (markdown : List Char) : Bool :=
  hasSub markdown ['\\', 'n'] &&
    decide (countSub ['\\', 'n'] markdown > countChar '\n' markdown)

/-- The run-on-line gate (src/content_filters.py:80): fewer than 10 real
newlines and more than 500 characters. -/
def runOnGate (markdown : List Char) : Bool :=
  decide (countChar '\n' markdown < 10) && decide (markdown.length > 500)

/-- The three `re.sub` rewrites applied under the run-on gate
(src/content_filters.py:82-88), in source order; the trailing
table-detection loop (lines 92-98) only executes `pass` and is omitted. -/
def runOnRepair (markdown : List Char) : List Char :=
  sectionFix none (noteFix none (sentenceFix none markdown))

/-- `ContentCleaner.clean_markdown_content` (src/content_filters.py:58-145)
with configurable indicator lists (the base cleaner passes the base
lists): empty input returned as is; escaped-newline fix; run-on-line
repair when the gate holds; split into lines; the classification loop;
join and whitespace cleanup. -/
def cleanMarkdownContentWith (nav footer skip : List (List Char))
    (markdown title : List Char) : List Char :=
  if markdown.isEmpty then markdown
  else
    let md1 := if needsEscapedNlFix markdown then
      replaceAll ['\\', 'n'] ['\n'] markdown else markdown
    let md2 := if runOnGate md1 then runOnRepair md1 else md1
    cleanWhitespace (joinNl (cleanLoop nav footer skip title false true (splitNl md2)))

/-- `ContentCleaner.clean_markdown_content` for the base cleaner. -/
def cleanMarkdownContent (markdown title : List Char) : List Char :=
  cleanMarkdownContentWith baseNavIndicators baseFooterIndicators baseSkipPatterns
    markdown title

/-! ## C1: the first footer line terminates processing -/

theorem hasSub_nil (pat : List Char) : hasSub [] pat = pat.isEmpty := by
  cases pat <;> simp [hasSub, List.isPrefixOf]

theorem isFooterLineWith_nil {footer : List (List Char)}
    (hne : ∀ f ∈ footer, f.isEmpty = false) : isFooterLineWith footer [] = false := by
  unfold isFooterLineWith
  rw [List.any_eq_false]
  intro f hf
  simp [plower, hasSub_nil, hne f hf]

/-- The classification loop is a function of the prefix of lines strictly
before the first footer-indicator line: everything from that line on is
discarded (the loop `break`s).  The hypothesis that no footer indicator is
the empty string holds for the base list and any real configuration. -/
theorem cleanLoop_stops_at_footer (nav footer skip : List (List Char)) (title : List Char)
    (hne : ∀ f ∈ footer, f.isEmpty = false) :
    ∀ (lines : List (List Char)) (cs sn : Bool),
      cleanLoop nav footer skip title cs sn lines =
        cleanLoop nav footer skip title cs sn
          (lines.takeWhile (fun l => !isFooterLineWith footer (pstrip l))) := by
  intro lines
  induction lines with
  | nil => intro cs sn; rfl
  | cons line rest ih =>
    intro cs sn
    by_cases hf : isFooterLineWith footer (pstrip line) = true
    · have hpe : (pstrip line).isEmpty = false := by
        cases hh : (pstrip line).isEmpty
        · rfl
        · exfalso
          rw [List.isEmpty_iff.mp hh, isFooterLineWith_nil hne] at hf
          cases hf
      rw [List.takeWhile_cons]
      simp only [hf, Bool.not_true, Bool.false_eq_true, if_false]
      simp only [cleanLoop, hpe, hf, Bool.and_false, Bool.false_eq_true, if_false, if_true]
    · rw [List.takeWhile_cons]
      have hf' : isFooterLineWith footer (pstrip line) = false := by
        cases hh : isFooterLineWith footer (pstrip line)
        · rfl
        · exact absurd hh hf
      simp only [hf', Bool.not_false, if_true]
      simp only [cleanLoop]
      split
      · exact ih cs sn
      · split
        · exact ih cs sn
        · split
          · exact ih cs sn
          · split
            · split
              · split
                · exact ih true false
                · exact congrArg _ (ih true false)
              · exact ih cs sn
            · split
              · exact ih cs sn
              · exact congrArg _ (ih cs sn)

/-- The four-line footer-precedence document from the spec's testable
properties. -/
def c1ExampleDoc : List Char :=
  ("## Guide\nSubstantial paragraph text here that is long enough.\nCopyright 2024 All rights reserved\nMore content that would have been kept").data

set_option maxRecDepth 100000 in
/-- C1: the first line matching a footer indicator terminates processing of
the entire document — the classification loop is a function of the prefix
of lines strictly before the first footer line, so nothing at or after
that line can reach the output; and on the four-line example document the
cleaned output is exactly the substantial paragraph, excluding the
copyright line and the line after it (the `## Guide` line is also dropped,
by the navigation phase, since the broken heading regex never fires). -/
theorem c1_footer_terminates_processing :
    (∀ (nav footer skip : List (List Char)) (title : List Char)
        (lines : List (List Char)) (cs sn : Bool),
        (∀ f ∈ footer, f.isEmpty = false) →
        cleanLoop nav footer skip title cs sn lines =
          cleanLoop nav footer skip title cs sn
            (lines.takeWhile (fun l => !isFooterLineWith footer (pstrip l)))) ∧
    cleanMarkdownContent c1ExampleDoc [] =
      ("Substantial paragraph text here that is long enough.").data := by
  constructor
  · intro nav footer skip title lines cs sn hne
    exact cleanLoop_stops_at_footer nav footer skip title hne lines cs sn
  · decide

set_option maxRecDepth 100000 in
/-- Witness for C1: the universal part applied to the base indicator lists
and the example document's lines, with the non-empty-indicator hypothesis
discharged by computation. -/
theorem c1_footer_terminates_processing_witness :
    (∀ f ∈ baseFooterIndicators, f.isEmpty = false) ∧
    cleanLoop baseNavIndicators baseFooterIndicators baseSkipPatterns [] false true
        (splitNl c1ExampleDoc) =
      cleanLoop baseNavIndicators baseFooterIndicators baseSkipPatterns [] false true
        ((splitNl c1ExampleDoc).takeWhile
          (fun l => !isFooterLineWith baseFooterIndicators (pstrip l))) :=
  ⟨by decide,
   c1_footer_terminates_processing.1 baseNavIndicators baseFooterIndicators
     baseSkipPatterns [] (splitNl c1ExampleDoc) false true (by decide)⟩

/-! ## C3: the level-2–6 heading detector never fires (code bug) -/

/-- A document starting with a 2-level heading that the spec says must
flip the content-started flag and be retained. -/
def c3ExampleDoc : List Char :=
  ("## Guide Intro\nSubstantial paragraph text here that is long enough.").data

set_option maxRecDepth 100000 in
/-- C3 (code bug): `## Guide Intro` is a level-2 markdown heading whose
text (`Guide Intro`, 11 characters) is longer than 10 characters and
contains no navigation keyword, scanned while the content-started flag is
still false — yet `_is_main_content_start` returns `False` on it, and the
full cleaner drops the heading from the output instead of retaining it.
The cause: the section-heading regex is written `r'^#{2,6}\\s+\\w'` inside
a raw string, so it demands literal backslashes after the `#` run and can
never match an ordinary heading line. -/
theorem c3_heading_detector_never_fires :
    ("## ".data).isPrefixOf ("## Guide Intro".data) = true ∧
    (pstrip (("## Guide Intro".data).drop 3)).length > 10 ∧
    (baseNavIndicators.any
      (fun n => hasSub (plower ("## Guide Intro".data)) n)) = false ∧
    isMainContentStartWith baseNavIndicators ("## Guide Intro".data) [] = false ∧
    cleanMarkdownContent c3ExampleDoc [] =
      ("Substantial paragraph text here that is long enough.").data := by
  refine ⟨by decide, by decide, by decide, by decide, by decide⟩

/-! ## C4: sentence-boundary insertion under the run-on gate -/

/-- A 524-character single-line document: `topic. Next` must be broken,
`e.g. Alpha` and `i.e. Beta` must not be; `time. Nice` exposes the
actual exception rule (preceding character `e`). -/
def c4ExampleDoc : List Char :=
  ("The first topic. Next topic starts here with e.g. Alpha and i.e. Beta and more time. Nice end ").data
    ++ List.replicate 430 'z'

/-- The output of the sentence rewrite on `c4ExampleDoc`: one paragraph
break inserted before `Next` (the preceding character is `c`), and no
break after `e.g. `, `i.e. ` — nor after `time.`, whose last character
`e` also suppresses the rewrite. -/
def c4ExampleExpected : List Char :=
  ("The first topic.".data) ++ '\n' :: '\n' ::
    ("Next topic starts here with e.g. Alpha and i.e. Beta and more time. Nice end ").data
    ++ List.replicate 430 'z'

/-- A gated document containing `time. Next`: the claim requires a break
after the non-abbreviation token `time`, but the code inserts none. -/
def c4CounterDoc : List Char :=
  ("He arrived on time. Next we left early today ").data ++ List.replicate 470 'q'

set_option maxRecDepth 100000 in
/-- C4 counterexample: `c4CounterDoc` passes the run-on gate (0 newlines,
515 characters) and contains `time. Next` — a period followed by a space
and a capital whose preceding token `time` is no abbreviation marker —
yet the repair returns the document completely unchanged: the lookbehinds
`(?<![eg])(?<![ie])` suppress the break after any character in
`{e, g, i}`, not just after `e.g.`/`i.e.`. -/
theorem c4_counterexample :
    runOnGate c4CounterDoc = true ∧
    hasSub c4CounterDoc ("time. Next".data) = true ∧
    runOnRepair c4CounterDoc = c4CounterDoc := by
  refine ⟨by decide, by decide, by decide⟩

set_option maxRecDepth 100000 in
/-- C4 (amended): under the run-on gate, a line break is inserted after a
period followed by a space and a capital letter exactly when the character
immediately preceding the period is not `e`, `g` or `i` (this protects
`e.g.`/`i.e.` but also suppresses the break after any word ending in one
of those letters).  On the 524-character example: the break is inserted
before `Next` and nothing is inserted after `e.g. `, `i.e. ` or
`time.`. -/
theorem c4_sentence_boundary_insertion :
    runOnGate c4ExampleDoc = true ∧
    runOnRepair c4ExampleDoc = c4ExampleExpected := by
  refine ⟨by decide, by decide⟩

/-! ## C5: idempotence of `_clean_whitespace`

Analysis infrastructure: the cleaner's output has right-stripped lines, no
run of three newlines and no blank first/last line — on such strings the
cleaner is the identity.  The collapse step, however, runs BEFORE the
per-line right-strip, so a document whose blank lines still carry spaces
escapes the collapse; `_clean_whitespace` is idempotent only on inputs
whose lines carry no trailing whitespace. -/

/-- Does the string start with a newline? -/
def startsNl : List Char → Bool
  | c :: _ => c == '\n'
  | [] => false

/-- Does the string start with two newlines? -/
def startsTwoNl : List Char → Bool
  | a :: b :: _ => a == '\n' && b == '\n'
  | _ => false

/-- No three consecutive newlines anywhere. -/
def noTriple : List Char → Bool
  | [] => true
  | c :: rest => !(c == '\n' && startsTwoNl rest) && noTriple rest

/-- Is the first element of the line list the empty line? -/
def headIsEmpty : List (List Char) → Bool
  | x :: _ => x.isEmpty
  | [] => false

/-- No two adjacent empty lines. -/
def noDoubleEmpty : List (List Char) → Bool
  | [] => true
  | x :: rest => !(x.isEmpty && headIsEmpty rest) && noDoubleEmpty rest

/-- Length of the leading newline run. -/
def leadNl (l : List Char) : Nat := (l.takeWhile (fun c => c == '\n')).length

theorem splitNl_ne_nil (l : List Char) : splitNl l ≠ [] := by
  cases l with
  | nil => simp [splitNl]
  | cons c rest =>
    by_cases hc : c == '\n'
    · simp [splitNl, hc]
    · simp only [splitNl, hc, Bool.false_eq_true, if_false]
      split <;> simp

theorem splitNl_cons_nl (l : List Char) : splitNl ('\n' :: l) = [] :: splitNl l := by
  simp [splitNl]

theorem splitNl_cons_ne {c : Char} (hc : ¬c = '\n') (l : List Char) :
    splitNl (c :: l) = (c :: (splitNl l).headI) :: (splitNl l).tail := by
  have hc' : (c == '\n') = false := by simp [hc]
  simp only [splitNl, hc', Bool.false_eq_true, if_false]
  cases hsp : splitNl l with
  | nil => exact absurd hsp (splitNl_ne_nil l)
  | cons y ys => rfl

theorem splitNl_nlFree {l : List Char} : ∀ x ∈ splitNl l, '\n' ∉ x := by
  induction l with
  | nil =>
    intro x hx
    simp only [splitNl, List.mem_singleton] at hx
    simp [hx]
  | cons c rest ih =>
    by_cases hc : c = '\n'
    · subst hc
      rw [splitNl_cons_nl]
      intro x hx
      rcases List.mem_cons.mp hx with h | h
      · simp [h]
      · exact ih x h
    · rw [splitNl_cons_ne hc]
      intro x hx
      rcases hsp : splitNl rest with _ | ⟨y, ys⟩
      · exact absurd hsp (splitNl_ne_nil rest)
      · rw [hsp] at hx
        simp only [List.headI, List.tail] at hx
        rcases List.mem_cons.mp hx with h | h
        · subst h
          intro hmem
          rcases List.mem_cons.mp hmem with h | h
          · exact hc h.symm
          · exact ih y (hsp ▸ List.mem_cons_self ..) h
        · exact ih x (hsp ▸ List.mem_cons_of_mem _ h)

theorem joinNl_cons_cons (x y : List Char) (ys : List (List Char)) :
    joinNl (x :: y :: ys) = x ++ '\n' :: joinNl (y :: ys) := rfl

theorem joinNl_splitNl (l : List Char) : joinNl (splitNl l) = l := by
  induction l with
  | nil => rfl
  | cons c rest ih =>
    by_cases hc : c = '\n'
    · subst hc
      rw [splitNl_cons_nl]
      cases hsp : splitNl rest with
      | nil => exact absurd hsp (splitNl_ne_nil rest)
      | cons y ys =>
        rw [joinNl_cons_cons, ← hsp, ih]
        rfl
    · rw [splitNl_cons_ne hc]
      cases hsp : splitNl rest with
      | nil => exact absurd hsp (splitNl_ne_nil rest)
      | cons y ys =>
        rw [hsp] at ih
        simp only [List.headI, List.tail]
        cases ys with
        | nil =>
          simp only [joinNl] at ih ⊢
          rw [← ih]
        | cons z zs =>
          rw [joinNl_cons_cons] at ih ⊢
          simp only [List.cons_append]
          rw [ih]

theorem splitNl_append_nlFree {x : List Char} (hx : '\n' ∉ x) (v : List Char) :
    splitNl (x ++ '\n' :: v) = x :: splitNl v := by
  induction x with
  | nil =>
    simp only [List.nil_append]
    exact splitNl_cons_nl v
  | cons c cs ih =>
    have hc : ¬c = '\n' := fun h => hx (h ▸ List.mem_cons_self ..)
    have hcs : '\n' ∉ cs := fun h => hx (List.mem_cons_of_mem _ h)
    rw [List.cons_append, splitNl_cons_ne hc, ih hcs]
    rfl

theorem splitNl_of_nlFree {x : List Char} (hx : '\n' ∉ x) : splitNl x = [x] := by
  induction x with
  | nil => rfl
  | cons c cs ih =>
    have hc : ¬c = '\n' := fun h => hx (h ▸ List.mem_cons_self ..)
    have hcs : '\n' ∉ cs := fun h => hx (List.mem_cons_of_mem _ h)
    rw [splitNl_cons_ne hc, ih hcs]
    rfl

theorem splitNl_joinNl {ls : List (List Char)} (hne : ls ≠ [])
    (hfree : ∀ x ∈ ls, '\n' ∉ x) : splitNl (joinNl ls) = ls := by
  induction ls with
  | nil => exact absurd rfl hne
  | cons x ls' ih =>
    cases ls' with
    | nil =>
      simp only [joinNl]
      exact splitNl_of_nlFree (hfree x (List.mem_cons_self ..))
    | cons y ys =>
      rw [joinNl_cons_cons,
        splitNl_append_nlFree (hfree x (List.mem_cons_self ..)),
        ih (by simp) (fun z hz => hfree z (List.mem_cons_of_mem _ hz))]

theorem rstrip_sublist (l : List Char) : List.Sublist (rstrip l) l := by
  induction l with
  | nil => simp [rstrip]
  | cons c rest ih =>
    by_cases he : (rstrip rest).isEmpty = true
    · simp only [rstrip, he, if_true]
      split
      · exact List.nil_sublist _
      · exact (List.nil_sublist _).cons₂ c
    · simp only [rstrip, he, Bool.false_eq_true, if_false]
      exact ih.cons₂ c

theorem rstrip_cons_inv {c : Char} {l : List Char} (h : rstrip (c :: l) = c :: l) :
    rstrip l = l := by
  by_cases he : (rstrip l).isEmpty = true
  · simp only [rstrip, he, if_true] at h
    split at h
    · cases h
    · injection h with h1 h2
      subst h2
      rfl
  · simp only [rstrip, he, Bool.false_eq_true, if_false] at h
    injection h with h1 h2

theorem rstrip_cons_of {c : Char} {l : List Char} (hl : rstrip l = l) (hne : l ≠ []) :
    rstrip (c :: l) = c :: l := by
  have he : (rstrip l).isEmpty = false := by
    rw [hl]
    cases l with
    | nil => exact absurd rfl hne
    | cons d ds => rfl
  simp only [rstrip, he, Bool.false_eq_true, if_false]
  rw [hl]

theorem rstrip_allspace {l : List Char} (h : ∀ c ∈ l, isPySpace c = true) :
    rstrip l = [] := by
  induction l with
  | nil => rfl
  | cons c rest ih =>
    have hr : rstrip rest = [] := ih (fun d hd => h d (List.mem_cons_of_mem _ hd))
    simp [rstrip, hr, h c (List.mem_cons_self ..)]

/-- A right-stripped blank line is empty. -/
theorem rstrip_blank_eq_nil {l : List Char} (hb : isBlankLine l = true)
    (hs : rstrip l = l) : l = [] := by
  rw [← hs]
  exact rstrip_allspace (by simpa [isBlankLine, List.all_eq_true] using hb)

theorem noTriple_tail {c : Char} {l : List Char} (h : noTriple (c :: l) = true) :
    noTriple l = true := by
  simp only [noTriple, Bool.and_eq_true] at h
  exact h.2

theorem leadNl_cons (c : Char) (t : List Char) :
    leadNl (c :: t) = if c == '\n' then leadNl t + 1 else 0 := by
  simp only [leadNl, List.takeWhile_cons]
  split <;> simp

theorem startsTwoNl_iff {l : List Char} : startsTwoNl l = true ↔ 2 ≤ leadNl l := by
  cases l with
  | nil => simp [startsTwoNl, leadNl]
  | cons a t =>
    cases t with
    | nil =>
      rw [leadNl_cons]
      simp only [startsTwoNl]
      split <;> simp [leadNl]
    | cons b u =>
      simp only [startsTwoNl, leadNl_cons]
      by_cases ha : a == '\n'
      · by_cases hb : b == '\n'
        · simp [ha, hb]
        · simp [ha, hb]
      · simp [ha]

theorem noTriple_leadNl {l : List Char} (h : noTriple l = true) : leadNl l ≤ 2 := by
  cases l with
  | nil => simp [leadNl]
  | cons a t =>
    rw [leadNl_cons]
    by_cases ha : a == '\n'
    · rw [if_pos ha]
      simp only [noTriple, Bool.and_eq_true] at h
      obtain ⟨h1, -⟩ := h
      rw [ha] at h1
      simp only [Bool.true_and, Bool.not_eq_eq_eq_not, Bool.not_true] at h1
      have h2 : ¬(2 ≤ leadNl t) := fun hh => by
        rw [startsTwoNl_iff.mpr hh] at h1
        cases h1
      omega
    · rw [if_neg ha]
      omega

/-- Collapse is the identity on strings without triple newline runs (the
counter `k` tracks newlines already seen in the current run). -/
theorem collapseNlAux_id {l : List Char} (h : noTriple l = true) :
    ∀ k, k + leadNl l ≤ 2 → collapseNlAux k l = l := by
  induction l with
  | nil => intro k hk; rfl
  | cons c rest ih =>
    intro k hk
    rw [leadNl_cons] at hk
    by_cases hc : c == '\n'
    · rw [if_pos hc] at hk
      have hk2 : k < 2 := by omega
      simp only [collapseNlAux, hc, if_true, hk2]
      rw [ih (noTriple_tail h) (k + 1) (by omega)]
    · rw [if_neg hc] at hk
      simp only [collapseNlAux, hc, Bool.false_eq_true, if_false]
      rw [ih (noTriple_tail h) 0
        (by have := noTriple_leadNl (noTriple_tail h); omega)]

theorem collapseNl_id {l : List Char} (h : noTriple l = true) : collapseNl l = l :=
  collapseNlAux_id h 0 (by have := noTriple_leadNl h; omega)

/-- The output of collapse has no triple newline run, and its leading run
is bounded by what the counter still allows. -/
theorem collapseNlAux_noTriple (l : List Char) :
    ∀ k, min k 2 + leadNl (collapseNlAux k l) ≤ 2 ∧
      noTriple (collapseNlAux k l) = true := by
  induction l with
  | nil =>
    intro k
    refine ⟨?_, rfl⟩
    simp only [collapseNlAux, leadNl, List.takeWhile_nil, List.length_nil]
    omega
  | cons c rest ih =>
    intro k
    by_cases hc : c == '\n'
    · by_cases hk : k < 2
      · simp only [collapseNlAux, hc, if_true, hk]
        obtain ⟨ih1, ih2⟩ := ih (k + 1)
        have hmin : min (k + 1) 2 = k + 1 := by omega
        rw [hmin] at ih1
        constructor
        · rw [leadNl_cons, if_pos hc]
          omega
        · unfold noTriple
          rw [Bool.and_eq_true]
          refine ⟨?_, ih2⟩
          have hst : startsTwoNl (collapseNlAux (k + 1) rest) = false := by
            cases hs : startsTwoNl (collapseNlAux (k + 1) rest)
            · rfl
            · have := startsTwoNl_iff.mp hs
              omega
          simp [hst]
      · simp only [collapseNlAux, hc, if_true, hk, if_false]
        obtain ⟨ih1, ih2⟩ := ih k
        exact ⟨ih1, ih2⟩
    · simp only [collapseNlAux, hc, Bool.false_eq_true, if_false]
      obtain ⟨ih1, ih2⟩ := ih 0
      constructor
      · rw [leadNl_cons, if_neg hc]
        omega
      · unfold noTriple
        rw [Bool.and_eq_true]
        refine ⟨by simp [hc], ih2⟩

theorem collapseNl_noTriple (l : List Char) : noTriple (collapseNl l) = true :=
  (collapseNlAux_noTriple l 0).2

/-- Collapse preserves the first line of the document. -/
theorem collapseNl_headLine (l : List Char) :
    (splitNl (collapseNl l)).headI = (splitNl l).headI := by
  unfold collapseNl
  induction l with
  | nil => rfl
  | cons c rest ih =>
    by_cases hc : c == '\n'
    · have hc' : c = '\n' := by exact beq_iff_eq.mp hc
      subst hc'
      simp only [collapseNlAux, if_true, Nat.zero_lt_two, beq_self_eq_true, splitNl_cons_nl]
      rfl
    · have hc' : ¬c = '\n' := by simpa using hc
      simp only [collapseNlAux, hc, Bool.false_eq_true, if_false]
      rw [splitNl_cons_ne hc', splitNl_cons_ne hc']
      simp only [List.headI_cons]
      rw [ih]

/-- Collapse preserves right-strippedness of every line. -/
theorem collapseNlAux_rstripped :
    ∀ (l : List Char) (k : Nat), (∀ x ∈ splitNl l, rstrip x = x) →
      ∀ x ∈ splitNl (collapseNlAux k l), rstrip x = x := by
  intro l
  induction l with
  | nil =>
    intro k _ x hx
    simp only [collapseNlAux, splitNl, List.mem_singleton] at hx
    subst hx
    rfl
  | cons c rest ih =>
    intro k H x hx
    by_cases hc : c == '\n'
    · have hc' : c = '\n' := beq_iff_eq.mp hc
      subst hc'
      have Hrest : ∀ y ∈ splitNl rest, rstrip y = y := by
        intro y hy
        exact H y (by rw [splitNl_cons_nl]; exact List.mem_cons_of_mem _ hy)
      by_cases hk : k < 2
      · simp only [collapseNlAux, beq_self_eq_true, if_true, hk, splitNl_cons_nl] at hx
        rcases List.mem_cons.mp hx with h | h
        · subst h; rfl
        · exact ih (k + 1) Hrest x h
      · simp only [collapseNlAux, beq_self_eq_true, if_true, hk, if_false] at hx
        exact ih k Hrest x hx
    · have hc' : ¬c = '\n' := by simpa using hc
      simp only [collapseNlAux, hc, Bool.false_eq_true, if_false] at hx
      rw [splitNl_cons_ne hc'] at hx
      have hsplit : splitNl rest = (splitNl rest).headI :: (splitNl rest).tail := by
        cases hsp : splitNl rest with
        | nil => exact absurd hsp (splitNl_ne_nil rest)
        | cons y ys => rfl
      have Hhead : rstrip (c :: (splitNl rest).headI) = c :: (splitNl rest).headI := by
        have := H (c :: (splitNl rest).headI)
          (by rw [splitNl_cons_ne hc']; exact List.mem_cons_self ..)
        exact this
      have Hrest : ∀ y ∈ splitNl rest, rstrip y = y := by
        intro y hy
        rw [hsplit] at hy
        rcases List.mem_cons.mp hy with h | h
        · subst h
          exact rstrip_cons_inv Hhead
        · exact H y (by rw [splitNl_cons_ne hc']; exact List.mem_cons_of_mem _ h)
      rcases List.mem_cons.mp hx with h | h
      · subst h
        rw [show (splitNl (collapseNlAux 0 rest)).headI = (splitNl rest).headI from
          collapseNl_headLine rest]
        exact Hhead
      · exact ih 0 Hrest x (List.mem_of_mem_tail h)

/-- In a string with no triple newline run, two adjacent empty lines can
only sit at the very beginning or the very end of the line list. -/
theorem splitNl_double_empty_boundary {u : List Char} (h : noTriple u = true) :
    ∀ A B, splitNl u = A ++ [] :: [] :: B → A = [] ∨ B = [] := by
  induction u with
  | nil =>
    intro A B heq
    simp only [splitNl] at heq
    have hlen := congrArg List.length heq
    simp only [List.length_cons, List.length_append, List.length_nil] at hlen
    omega
  | cons c rest ih =>
    intro A B heq
    by_cases hc : c = '\n'
    · subst hc
      rw [splitNl_cons_nl] at heq
      cases A with
      | nil => exact Or.inl rfl
      | cons a A' =>
        injection heq with h1 h2
        rcases ih (noTriple_tail h) A' B h2 with hA | hB
        · subst hA
          cases rest with
          | nil =>
            simp [splitNl] at h2
          | cons d v =>
            by_cases hd : d = '\n'
            · subst hd
              rw [splitNl_cons_nl] at h2
              injection h2 with h3 h4
              cases v with
              | nil =>
                simp only [splitNl] at h4
                injection h4 with h5 h6
                exact Or.inr h6.symm
              | cons e w =>
                by_cases he2 : e = '\n'
                · subst he2
                  exfalso
                  simp [noTriple, startsTwoNl] at h
                · rw [splitNl_cons_ne he2] at h4
                  exact absurd h4 (by simp)
            · rw [splitNl_cons_ne hd] at h2
              exact absurd h2 (by simp)
        · exact Or.inr hB
    · rw [splitNl_cons_ne hc] at heq
      cases A with
      | nil =>
        injection heq with h1 h2
        exact absurd h1 (by simp)
      | cons a A' =>
        injection heq with h1 h2
        have hsplit : splitNl rest = (splitNl rest).headI :: (splitNl rest).tail := by
          cases hsp : splitNl rest with
          | nil => exact absurd hsp (splitNl_ne_nil rest)
          | cons y ys => rfl
        have hdec : splitNl rest = ((splitNl rest).headI :: A') ++ [] :: [] :: B := by
          conv_lhs => rw [hsplit]
          rw [h2]
          simp [List.cons_append]
        rcases ih (noTriple_tail h) ((splitNl rest).headI :: A') B hdec with hA | hB
        · exact absurd hA (by simp)
        · exact Or.inr hB

theorem noDoubleEmpty_tail {x : List Char} {ls : List (List Char)}
    (h : noDoubleEmpty (x :: ls) = true) : noDoubleEmpty ls = true := by
  simp only [noDoubleEmpty, Bool.and_eq_true] at h
  exact h.2

theorem noDoubleEmpty_decomp {ls : List (List Char)} (h : noDoubleEmpty ls = false) :
    ∃ A B, ls = A ++ [] :: [] :: B := by
  induction ls with
  | nil => simp [noDoubleEmpty] at h
  | cons x rest ih =>
    by_cases hrest : noDoubleEmpty rest = true
    · simp only [noDoubleEmpty, hrest, Bool.and_true, Bool.not_eq_false',
        Bool.and_eq_true] at h
      obtain ⟨hxe, hhe⟩ := h
      have hx : x = [] := List.isEmpty_iff.mp hxe
      cases rest with
      | nil => simp [headIsEmpty] at hhe
      | cons y rest' =>
        have hy : y = [] := List.isEmpty_iff.mp hhe
        subst hx; subst hy
        exact ⟨[], rest', rfl⟩
    · obtain ⟨A, B, hAB⟩ := ih (Bool.eq_false_iff.mpr hrest)
      exact ⟨x :: A, B, by rw [hAB]; rfl⟩

theorem head_dropWhile_not {α : Type} (p : α → Bool) {l : List α} {x : α} {xs : List α}
    (h : l.dropWhile p = x :: xs) : p x = false := by
  induction l with
  | nil => cases h
  | cons c t ih =>
    rw [List.dropWhile_cons] at h
    split at h
    · exact ih h
    · next hp =>
      injection h with h1 h2
      subst h1
      simpa using hp

theorem stripBlankEnds_eq (L : List (List Char)) :
    L.dropWhile isBlankLine =
      stripBlankEnds L ++ ((L.dropWhile isBlankLine).reverse.takeWhile isBlankLine).reverse := by
  unfold stripBlankEnds
  calc L.dropWhile isBlankLine = (L.dropWhile isBlankLine).reverse.reverse := by
        rw [List.reverse_reverse]
    _ = ((L.dropWhile isBlankLine).reverse.takeWhile isBlankLine ++
          (L.dropWhile isBlankLine).reverse.dropWhile isBlankLine).reverse := by
        rw [List.takeWhile_append_dropWhile]
    _ = ((L.dropWhile isBlankLine).reverse.dropWhile isBlankLine).reverse ++
          ((L.dropWhile isBlankLine).reverse.takeWhile isBlankLine).reverse := by
        rw [List.reverse_append]

theorem stripBlankEnds_decomp (L : List (List Char)) :
    ∃ P S, L = P ++ stripBlankEnds L ++ S ∧
      (∀ y ∈ P, isBlankLine y = true) ∧ (∀ y ∈ S, isBlankLine y = true) := by
  refine ⟨L.takeWhile isBlankLine,
    ((L.dropWhile isBlankLine).reverse.takeWhile isBlankLine).reverse, ?_, ?_, ?_⟩
  · conv_lhs => rw [← List.takeWhile_append_dropWhile (p := isBlankLine) (l := L)]
    rw [List.append_assoc]
    congr 1
    exact stripBlankEnds_eq L
  · intro y hy
    exact List.mem_takeWhile_imp hy
  · intro y hy
    rw [List.mem_reverse] at hy
    exact List.mem_takeWhile_imp hy

theorem stripBlankEnds_subset {L : List (List Char)} {x : List Char}
    (hx : x ∈ stripBlankEnds L) : x ∈ L := by
  obtain ⟨P, S, hdec, -, -⟩ := stripBlankEnds_decomp L
  rw [hdec]
  exact List.mem_append_left _ (List.mem_append_right _ hx)

theorem stripBlankEnds_head {L : List (List Char)} {x : List Char} {xs : List (List Char)}
    (h : stripBlankEnds L = x :: xs) : isBlankLine x = false := by
  have hsum := stripBlankEnds_eq L
  rw [h, List.cons_append] at hsum
  exact head_dropWhile_not isBlankLine hsum

theorem stripBlankEnds_getLast {L : List (List Char)} {x : List Char}
    (h : (stripBlankEnds L).getLast? = some x) : isBlankLine x = false := by
  unfold stripBlankEnds at h
  rw [List.getLast?_reverse] at h
  cases hd : (L.dropWhile isBlankLine).reverse.dropWhile isBlankLine with
  | nil => rw [hd] at h; cases h
  | cons y ys =>
    rw [hd] at h
    simp only [List.head?_cons, Option.some.injEq] at h
    subst h
    exact head_dropWhile_not isBlankLine hd

theorem stripBlankEnds_of_ends {M : List (List Char)} {x : List Char} {xs : List (List Char)}
    (hM : M = x :: xs) (hhead : isBlankLine x = false)
    (hlast : ∀ y, M.getLast? = some y → isBlankLine y = false) :
    stripBlankEnds M = M := by
  unfold stripBlankEnds
  have h1 : M.dropWhile isBlankLine = M := by
    rw [hM, List.dropWhile_cons, if_neg (by simp [hhead])]
  rw [h1]
  have h2 : M.reverse.dropWhile isBlankLine = M.reverse := by
    cases hr : M.reverse with
    | nil =>
      rfl
    | cons z zs =>
      rw [List.dropWhile_cons]
      have hz : M.getLast? = some z := by
        have hrr := List.getLast?_reverse (l := M.reverse)
        rw [List.reverse_reverse] at hrr
        rw [hrr, hr]
        rfl
      rw [if_neg (by simp [hlast z hz])]
  rw [h2, List.reverse_reverse]

theorem noTriple_of_nlFree {x : List Char} (hx : '\n' ∉ x) : noTriple x = true := by
  induction x with
  | nil => rfl
  | cons c t ih =>
    have hc : (c == '\n') = false := by
      simp only [beq_eq_false_iff_ne, ne_eq]
      exact fun h => hx (h ▸ List.mem_cons_self ..)
    simp only [noTriple, hc, Bool.false_and, Bool.not_false, Bool.true_and]
    exact ih (fun h => hx (List.mem_cons_of_mem _ h))

theorem noTriple_append {x : List Char} (v : List Char) (hx : '\n' ∉ x) :
    noTriple (x ++ v) = noTriple v := by
  induction x with
  | nil => rfl
  | cons c t ih =>
    have hc : (c == '\n') = false := by
      simp only [beq_eq_false_iff_ne, ne_eq]
      exact fun h => hx (h ▸ List.mem_cons_self ..)
    simp only [List.cons_append, noTriple, hc, Bool.false_and, Bool.not_false, Bool.true_and]
    exact ih (fun h => hx (List.mem_cons_of_mem _ h))

theorem startsNl_joinNl {ls : List (List Char)} (hfree : ∀ x ∈ ls, '\n' ∉ x)
    (hne : headIsEmpty ls = false) : startsNl (joinNl ls) = false := by
  cases ls with
  | nil => rfl
  | cons x ls' =>
    have hx : x.isEmpty = false := hne
    cases x with
    | nil => cases hx
    | cons c x' =>
      have hc : (c == '\n') = false := by
        simp only [beq_eq_false_iff_ne, ne_eq]
        exact fun h => hfree (c :: x') (List.mem_cons_self ..) (h ▸ List.mem_cons_self ..)
      cases ls' with
      | nil => simp [joinNl, startsNl, hc]
      | cons y ls'' => simp [joinNl_cons_cons, List.cons_append, startsNl, hc]

theorem startsTwoNl_cons_nl {J : List Char} :
    startsTwoNl ('\n' :: J) = startsNl J := by
  cases J with
  | nil => rfl
  | cons b u => simp [startsTwoNl, startsNl]

theorem startsTwoNl_joinNl {ls : List (List Char)} (hfree : ∀ x ∈ ls, '\n' ∉ x)
    (hnd : noDoubleEmpty ls = true) : startsTwoNl (joinNl ls) = false := by
  cases ls with
  | nil => rfl
  | cons x ls' =>
    cases hxe : x.isEmpty with
    | false =>
      have h1 : startsNl (joinNl (x :: ls')) = false := startsNl_joinNl hfree hxe
      cases hj : joinNl (x :: ls') with
      | nil => rfl
      | cons a u =>
        rw [hj] at h1
        cases u with
        | nil => rfl
        | cons b w => simp only [startsTwoNl, startsNl] at h1 ⊢; simp [h1]
    | true =>
      have hx : x = [] := List.isEmpty_iff.mp hxe
      subst hx
      cases ls' with
      | nil => rfl
      | cons y ls'' =>
        rw [joinNl_cons_cons, List.nil_append, startsTwoNl_cons_nl]
        have hy : y.isEmpty = false := by
          simp only [noDoubleEmpty, headIsEmpty, List.isEmpty_nil, Bool.true_and,
            Bool.and_eq_true, Bool.not_eq_eq_eq_not, Bool.not_true] at hnd
          exact hnd.1
        exact startsNl_joinNl (fun z hz => hfree z (List.mem_cons_of_mem _ hz)) hy

theorem noTriple_joinNl {ls : List (List Char)} (hfree : ∀ x ∈ ls, '\n' ∉ x)
    (hnd : noDoubleEmpty ls = true) : noTriple (joinNl ls) = true := by
  induction ls with
  | nil => rfl
  | cons x ls' ih =>
    cases ls' with
    | nil => exact noTriple_of_nlFree (hfree x (List.mem_cons_self ..))
    | cons y ls'' =>
      rw [joinNl_cons_cons, noTriple_append _ (hfree x (List.mem_cons_self ..))]
      have hfree' : ∀ z ∈ y :: ls'', '\n' ∉ z :=
        fun z hz => hfree z (List.mem_cons_of_mem _ hz)
      have hnd' : noDoubleEmpty (y :: ls'') = true := noDoubleEmpty_tail hnd
      have h1 : startsTwoNl (joinNl (y :: ls'')) = false := startsTwoNl_joinNl hfree' hnd'
      have h2 : noTriple (joinNl (y :: ls'')) = true := ih hfree' hnd'
      simp [noTriple, h1, h2]

theorem map_rstrip_id {L : List (List Char)} (h : ∀ x ∈ L, rstrip x = x) :
    L.map rstrip = L := by
  calc L.map rstrip = L.map id := List.map_congr_left h
    _ = L := List.map_id L

theorem stripBlankEnds_noDoubleEmpty {u : List Char} (hnt : noTriple u = true) :
    noDoubleEmpty (stripBlankEnds (splitNl u)) = true := by
  cases hnd : noDoubleEmpty (stripBlankEnds (splitNl u)) with
  | true => rfl
  | false =>
    exfalso
    obtain ⟨A', B', hM⟩ := noDoubleEmpty_decomp hnd
    have hA : A' ≠ [] := by
      intro h
      subst h
      rw [List.nil_append] at hM
      have := stripBlankEnds_head hM
      simp [isBlankLine] at this
    have hB : B' ≠ [] := by
      intro h
      subst h
      have hlast : (stripBlankEnds (splitNl u)).getLast? = some [] := by
        have h2ne : ([[], []] : List (List Char)) ≠ [] := by simp
        rw [hM, List.getLast?_append_of_ne_nil A' h2ne]
        rfl
      have := stripBlankEnds_getLast hlast
      simp [isBlankLine] at this
    obtain ⟨P, S, hdec, -, -⟩ := stripBlankEnds_decomp (splitNl u)
    rw [hM] at hdec
    have hdec' : splitNl u = (P ++ A') ++ [] :: [] :: (B' ++ S) := by
      rw [hdec]
      simp [List.append_assoc]
    rcases splitNl_double_empty_boundary hnt _ _ hdec' with h | h
    · exact hA (List.append_eq_nil.mp h).2
    · exact hB (List.append_eq_nil.mp h).1

/-- C5 (amended): `_clean_whitespace` is idempotent on every document none
of whose lines carries trailing whitespace.  (In general it is NOT
idempotent — see the counterexample: the newline collapse runs before the
per-line right-strip, so whitespace-only lines block the collapse on the
first pass and only become collapsible blank lines on the next.) -/
theorem c5_clean_whitespace_idempotent_amended (s : List Char)
    (H : ∀ x ∈ splitNl s, rstrip x = x) :
    cleanWhitespace (cleanWhitespace s) = cleanWhitespace s := by
  have HL : ∀ x ∈ splitNl (collapseNl s), rstrip x = x := by
    unfold collapseNl
    exact collapseNlAux_rstripped s 0 H
  have hmap : (splitNl (collapseNl s)).map rstrip = splitNl (collapseNl s) :=
    map_rstrip_id HL
  have hfs : cleanWhitespace s = joinNl (stripBlankEnds (splitNl (collapseNl s))) := by
    unfold cleanWhitespace
    rw [hmap]
  cases hM : stripBlankEnds (splitNl (collapseNl s)) with
  | nil =>
    rw [hfs, hM]
    rfl
  | cons m0 M' =>
    have hfree : ∀ x ∈ stripBlankEnds (splitNl (collapseNl s)), '\n' ∉ x := fun x hx =>
      splitNl_nlFree x (stripBlankEnds_subset hx)
    have hMne : stripBlankEnds (splitNl (collapseNl s)) ≠ [] := by
      rw [hM]
      simp
    have hsj : splitNl (joinNl (stripBlankEnds (splitNl (collapseNl s)))) =
        stripBlankEnds (splitNl (collapseNl s)) := splitNl_joinNl hMne hfree
    have hnd : noDoubleEmpty (stripBlankEnds (splitNl (collapseNl s))) = true :=
      stripBlankEnds_noDoubleEmpty (collapseNl_noTriple s)
    have hnt : noTriple (joinNl (stripBlankEnds (splitNl (collapseNl s)))) = true :=
      noTriple_joinNl hfree hnd
    have hcol : collapseNl (joinNl (stripBlankEnds (splitNl (collapseNl s)))) =
        joinNl (stripBlankEnds (splitNl (collapseNl s))) := collapseNl_id hnt
    have hstr : ∀ x ∈ stripBlankEnds (splitNl (collapseNl s)), rstrip x = x := fun x hx =>
      HL x (stripBlankEnds_subset hx)
    have hmap2 : (stripBlankEnds (splitNl (collapseNl s))).map rstrip =
        stripBlankEnds (splitNl (collapseNl s)) := map_rstrip_id hstr
    have hse : stripBlankEnds (stripBlankEnds (splitNl (collapseNl s))) =
        stripBlankEnds (splitNl (collapseNl s)) :=
      stripBlankEnds_of_ends hM (stripBlankEnds_head hM)
        (fun y hy => stripBlankEnds_getLast hy)
    rw [hfs]
    conv_lhs => unfold cleanWhitespace
    rw [hcol, hsj, hmap2, hse]

/-- C5 counterexample: on `"a\n \n \n \nb"` — blank lines that still hold a
space — one application yields `"a\n\n\n\nb"` (the collapse saw no newline
run because of the spaces), and a second application collapses further to
`"a\n\nb"`: `_clean_whitespace` is not idempotent. -/
theorem c5_counterexample :
    cleanWhitespace (("a\n \n \n \nb").data) = ("a\n\n\n\nb").data ∧
    cleanWhitespace (cleanWhitespace (("a\n \n \n \nb").data)) = ("a\n\nb").data ∧
    cleanWhitespace (cleanWhitespace (("a\n \n \n \nb").data)) ≠
      cleanWhitespace (("a\n \n \n \nb").data) := by
  refine ⟨by decide, by decide, by decide⟩

/-- Witness for the amended C5 at a concrete document with right-stripped
lines. -/
theorem c5_clean_whitespace_idempotent_amended_witness :
    (∀ x ∈ splitNl (("ok\n\n\n text").data), rstrip x = x) ∧
    cleanWhitespace (cleanWhitespace (("ok\n\n\n text").data)) =
      cleanWhitespace (("ok\n\n\n text").data) :=
  ⟨by decide, c5_clean_whitespace_idempotent_amended _ (by decide)⟩

/-! ## URL normalization (`URLDiscovery.normalize_url`, src/crawler.py:150-165)

`urllib.parse.urlparse` is modelled for absolute URLs: an optional valid
scheme (`[A-Za-z][A-Za-z0-9+.-]*`, lowercased), `//netloc` up to the first
`/?#`, fragment split at the first `#`, query at the first `?`, and the
`;params` suffix of the path's last segment split off (`urlparse` drops it
from `.path`).  `normalize_url` (with no base URL) rebuilds
`scheme://netloc + path` plus `?query` when the query is non-empty, then
drops one trailing slash when the string ends in `/` and the parsed path
is longer than one character. -/

/-- The characters allowed in a scheme after the first (`scheme_chars`). -/
def isSchemeChar (c : Char) : Bool :=
  c.isAlpha || c.isDigit || c == '+' || c == '-' || c == '.'

/-- Split at the first occurrence of a character, if any. -/
def splitAtChar (sep : Char) : List Char → Option (List Char × List Char)
  | [] => none
  | c :: rest =>
    if c == sep then some ([], rest)
    else (splitAtChar sep rest).map (fun p => (c :: p.1, p.2))

/-- Scheme extraction: the prefix before the first `:` when it is a valid
scheme (non-empty, letter first, scheme characters throughout), lowercased;
otherwise no scheme. -/
def splitScheme (u : List Char) : List Char × List Char :=
  match splitAtChar ':' u with
  | none => ([], u)
  | some (pre, post) =>
    if pre ≠ [] ∧ pre.headI.isAlpha = true ∧ pre.all isSchemeChar = true then
      (pre.map Char.toLower, post)
    else ([], u)

/-- A character that does not end the netloc. -/
def notNetlocEnd (c : Char) : Bool := !(c == '/' || c == '?' || c == '#')

/-- Netloc extraction after `//`. -/
def splitNetloc : List Char → List Char × List Char
  | a :: b :: rest =>
    if a == '/' && b == '/' then (rest.takeWhile notNetlocEnd, rest.dropWhile notNetlocEnd)
    else ([], a :: b :: rest)
  | u => ([], u)

/-- Fragment split at the first `#` (an absent and an empty fragment both
yield `[]`; `normalize_url` discards the fragment either way). -/
def splitFragment (u : List Char) : List Char × List Char :=
  match splitAtChar '#' u with
  | none => (u, [])
  | some (a, b) => (a, b)

/-- Query split at the first `?` (an absent and an empty query both yield
`[]`, matching the falsy test `if parsed.query`). -/
def splitQuery (u : List Char) : List Char × List Char :=
  match splitAtChar '?' u with
  | none => (u, [])
  | some (a, b) => (a, b)

/-- The path's last `/`-separated segment. -/
def lastSegment (p : List Char) : List Char :=
  (p.reverse.takeWhile (fun c => !(c == '/'))).reverse

/-- `urlparse`'s params split: the part of the last segment after its
first `;` is removed from the path. -/
def splitParams (p : List Char) : List Char × List Char :=
  match splitAtChar ';' (lastSegment p) with
  | none => (p, [])
  | some (a, b) => (p.take (p.length - (lastSegment p).length) ++ a, b)

/-- The components of `urlparse` that `normalize_url` consumes. -/
structure UrlParts where
  scheme : List Char
  netloc : List Char
  path : List Char
  query : List Char
deriving DecidableEq

/-- `urllib.parse.urlparse`, restricted to the four consumed fields. -/
def urlparse4 (u : List Char) : UrlParts :=
  let sp := splitScheme u
  let np := splitNetloc sp.2
  let fp := splitFragment np.2
  let qp := splitQuery fp.1
  let pp := splitParams qp.1
  ⟨sp.1, np.1, pp.1, qp.2⟩

/-- `URLDiscovery.normalize_url` with no base URL
(src/crawler.py:150-165). -/
def normalizeUrl (u : List Char) : List Char :=
  let P := urlparse4 u
  let r0 := P.scheme ++ ':' :: '/' :: '/' :: (P.netloc ++ P.path)
  let r := if P.query.isEmpty then r0 else r0 ++ '?' :: P.query
  if r.getLast? == some '/' && decide (1 < P.path.length) then r.dropLast else r

theorem char_eq_of_toNat {c d : Char} (h : c.toNat = d.toNat) : c = d := by
  apply Char.ext
  apply UInt32.eq_of_toBitVec_eq
  apply BitVec.eq_of_toNat_eq
  exact h

theorem char_toNat_ofNat_small {m : Nat} (h : m < 55296) : (Char.ofNat m).toNat = m := by
  have hv : m.isValidChar := Or.inl h
  rw [Char.ofNat, dif_pos hv]
  simp only [Char.ofNatAux, Char.toNat]
  exact BitVec.toNat_ofNatLt _ _

theorem isUpper_toNat {c : Char} : c.isUpper = true ↔ 65 ≤ c.toNat ∧ c.toNat ≤ 90 := by
  simp [Char.isUpper, Char.toNat, UInt32.le_def, BitVec.le_def, UInt32.toNat]

theorem isLower_toNat {c : Char} : c.isLower = true ↔ 97 ≤ c.toNat ∧ c.toNat ≤ 122 := by
  simp [Char.isLower, Char.toNat, UInt32.le_def, BitVec.le_def, UInt32.toNat]

theorem isDigit_toNat {c : Char} : c.isDigit = true ↔ 48 ≤ c.toNat ∧ c.toNat ≤ 57 := by
  simp [Char.isDigit, Char.toNat, UInt32.le_def, BitVec.le_def, UInt32.toNat]

theorem isAlpha_toNat {c : Char} : c.isAlpha = true ↔
    (65 ≤ c.toNat ∧ c.toNat ≤ 90) ∨ (97 ≤ c.toNat ∧ c.toNat ≤ 122) := by
  simp [Char.isAlpha, isUpper_toNat, isLower_toNat]

theorem toLower_toNat (c : Char) : (Char.toLower c).toNat =
    if 65 ≤ c.toNat ∧ c.toNat ≤ 90 then c.toNat + 32 else c.toNat := by
  unfold Char.toLower
  split
  · next h =>
    rw [if_pos (by omega)]
    exact char_toNat_ofNat_small (by omega)
  · next h =>
    rw [if_neg (by omega)]

theorem toLower_isAlpha {c : Char} (h : c.isAlpha = true) :
    (Char.toLower c).isAlpha = true := by
  rw [isAlpha_toNat] at h ⊢
  rw [toLower_toNat]
  split <;> omega

theorem char_beq_toNat {c d : Char} : (c == d) = true ↔ c.toNat = d.toNat := by
  constructor
  · intro h
    rw [beq_iff_eq.mp h]
  · intro h
    exact beq_iff_eq.mpr (char_eq_of_toNat h)

theorem isSchemeChar_toNat {c : Char} : isSchemeChar c = true ↔
    (65 ≤ c.toNat ∧ c.toNat ≤ 90) ∨ (97 ≤ c.toNat ∧ c.toNat ≤ 122) ∨
    (48 ≤ c.toNat ∧ c.toNat ≤ 57) ∨ c.toNat = 43 ∨ c.toNat = 45 ∨ c.toNat = 46 := by
  have h43 : ('+' : Char).toNat = 43 := rfl
  have h45 : ('-' : Char).toNat = 45 := rfl
  have h46 : ('.' : Char).toNat = 46 := rfl
  simp only [isSchemeChar, Bool.or_eq_true, isAlpha_toNat, isDigit_toNat, char_beq_toNat,
    h43, h45, h46]
  tauto

theorem toLower_isSchemeChar {c : Char} (h : isSchemeChar c = true) :
    isSchemeChar (Char.toLower c) = true := by
  rw [isSchemeChar_toNat] at h ⊢
  rw [toLower_toNat]
  split <;> omega

theorem toLower_idem (c : Char) : Char.toLower (Char.toLower c) = Char.toLower c := by
  apply char_eq_of_toNat
  simp only [toLower_toNat]
  split
  · split <;> omega
  · rfl

theorem schemeChar_ne_colon {c : Char} (h : isSchemeChar c = true) : ¬c = ':' := by
  intro he
  subst he
  cases h

theorem map_toLower_idem (s : List Char) :
    (s.map Char.toLower).map Char.toLower = s.map Char.toLower := by
  rw [List.map_map]
  exact List.map_congr_left (fun c _ => toLower_idem c)

theorem splitAtChar_eq_none {sep : Char} {l : List Char} :
    splitAtChar sep l = none ↔ sep ∉ l := by
  induction l with
  | nil => simp [splitAtChar]
  | cons c rest ih =>
    simp only [splitAtChar]
    split
    · next h =>
      rw [beq_iff_eq] at h
      subst h
      simp
    · next h =>
      have hne : ¬sep = c := by
        intro he
        subst he
        simp at h
      rw [Option.map_eq_none', ih]
      simp only [List.mem_cons]
      tauto

theorem splitAtChar_eq_some {sep : Char} : ∀ {l a b : List Char},
    splitAtChar sep l = some (a, b) → l = a ++ sep :: b ∧ sep ∉ a := by
  intro l
  induction l with
  | nil => intro a b h; cases h
  | cons c rest ih =>
    intro a b h
    simp only [splitAtChar] at h
    split at h
    · next hc =>
      rw [beq_iff_eq] at hc
      simp only [Option.some.injEq, Prod.mk.injEq] at h
      obtain ⟨h1, h2⟩ := h
      subst h1; subst h2; subst hc
      simp
    · next hc =>
      rw [Option.map_eq_some'] at h
      obtain ⟨⟨a', b'⟩, ho, hf⟩ := h
      simp only [Prod.mk.injEq] at hf
      obtain ⟨h1, h2⟩ := hf
      subst h1; subst h2
      obtain ⟨hr, hm⟩ := ih ho
      constructor
      · rw [hr]; rfl
      · simp only [List.mem_cons, not_or]
        refine ⟨?_, hm⟩
        intro he
        subst he
        simp at hc

theorem splitAtChar_append {sep : Char} : ∀ {a : List Char} (b : List Char), sep ∉ a →
    splitAtChar sep (a ++ sep :: b) = some (a, b) := by
  intro a
  induction a with
  | nil => intro b _; simp [splitAtChar]
  | cons c cs ih =>
    intro b h
    simp only [List.mem_cons, not_or] at h
    have hc : (c == sep) = false := by
      rw [beq_eq_false_iff_ne]
      intro he
      exact h.1 he.symm
    simp only [List.cons_append, splitAtChar, hc, Bool.false_eq_true, if_false,
      List.append_eq]
    rw [ih b h.2]
    rfl

theorem takeWhile_append_all {α : Type} {p : α → Bool} {a b : List α}
    (h : ∀ c ∈ a, p c = true) : (a ++ b).takeWhile p = a ++ b.takeWhile p := by
  induction a with
  | nil => rfl
  | cons c cs ih =>
    simp only [List.cons_append, List.takeWhile_cons]
    rw [h c (List.mem_cons_self c cs)]
    simp only [if_true, List.cons.injEq, true_and]
    exact ih (fun x hx => h x (List.mem_cons_of_mem c hx))

theorem dropWhile_append_all {α : Type} {p : α → Bool} {a b : List α}
    (h : ∀ c ∈ a, p c = true) : (a ++ b).dropWhile p = b.dropWhile p := by
  induction a with
  | nil => rfl
  | cons c cs ih =>
    simp only [List.cons_append, List.dropWhile_cons]
    rw [h c (List.mem_cons_self c cs)]
    simp only [if_true]
    exact ih (fun x hx => h x (List.mem_cons_of_mem c hx))

theorem takeWhile_nil_of_head {α : Type} [Inhabited α] {p : α → Bool} {l : List α}
    (hne : l ≠ []) (h : p l.headI = false) : l.takeWhile p = [] := by
  cases l with
  | nil => exact absurd rfl hne
  | cons c cs =>
    have hc : p c = false := h
    simp [List.takeWhile_cons, hc]

theorem dropWhile_self_of_head {α : Type} [Inhabited α] {p : α → Bool} {l : List α}
    (hne : l ≠ []) (h : p l.headI = false) : l.dropWhile p = l := by
  cases l with
  | nil => exact absurd rfl hne
  | cons c cs =>
    have hc : p c = false := h
    simp [List.dropWhile_cons, hc]

theorem headI_of_pref {α : Type} [Inhabited α] {a l : List α}
    (h : a <+: l) (ha : a ≠ []) : l.headI = a.headI := by
  obtain ⟨t, rfl⟩ := h
  cases a with
  | nil => exact absurd rfl ha
  | cons c cs => rfl

theorem prefix_ne_nil {α : Type} {a l : List α} (h : a <+: l) (ha : a ≠ []) : l ≠ [] := by
  intro he
  subst he
  exact ha (List.prefix_nil.mp h)

theorem suffix_take_append {α : Type} {t l : List α} (h : t <:+ l) :
    l.take (l.length - t.length) ++ t = l := by
  obtain ⟨a, rfl⟩ := h
  have hl : (a ++ t).length - t.length = a.length := by simp
  rw [hl, List.take_left]

theorem lastSegment_suffix (p : List Char) : lastSegment p <:+ p := by
  have h1 : p.reverse.takeWhile (fun c => !(c == '/')) <+: p.reverse :=
    List.takeWhile_prefix _
  have h2 := List.reverse_suffix.mpr h1
  rw [List.reverse_reverse] at h2
  exact h2

theorem splitFragment_fst_no_hash (l : List Char) : '#' ∉ (splitFragment l).1 := by
  rw [splitFragment]
  cases h : splitAtChar '#' l with
  | none => exact splitAtChar_eq_none.mp h
  | some p =>
    obtain ⟨a, b⟩ := p
    exact (splitAtChar_eq_some h).2

theorem splitFragment_fst_pref (l : List Char) : (splitFragment l).1 <+: l := by
  rw [splitFragment]
  cases h : splitAtChar '#' l with
  | none => exact List.prefix_refl l
  | some p =>
    obtain ⟨a, b⟩ := p
    exact ⟨'#' :: b, ((splitAtChar_eq_some h).1).symm⟩

theorem splitQuery_fst_no_question (l : List Char) : '?' ∉ (splitQuery l).1 := by
  rw [splitQuery]
  cases h : splitAtChar '?' l with
  | none => exact splitAtChar_eq_none.mp h
  | some p =>
    obtain ⟨a, b⟩ := p
    exact (splitAtChar_eq_some h).2

theorem splitQuery_fst_pref (l : List Char) : (splitQuery l).1 <+: l := by
  rw [splitQuery]
  cases h : splitAtChar '?' l with
  | none => exact List.prefix_refl l
  | some p =>
    obtain ⟨a, b⟩ := p
    exact ⟨'?' :: b, ((splitAtChar_eq_some h).1).symm⟩

theorem splitQuery_snd_suffix (l : List Char) : (splitQuery l).2 <:+ l := by
  rw [splitQuery]
  cases h : splitAtChar '?' l with
  | none => exact List.nil_suffix
  | some p =>
    obtain ⟨a, b⟩ := p
    refine ⟨a ++ ['?'], ?_⟩
    rw [(splitAtChar_eq_some h).1]
    simp

theorem splitParams_fst_pref (p : List Char) : (splitParams p).1 <+: p := by
  rw [splitParams]
  cases h : splitAtChar ';' (lastSegment p) with
  | none => exact List.prefix_refl p
  | some q =>
    obtain ⟨a, b⟩ := q
    refine ⟨';' :: b, ?_⟩
    rw [List.append_assoc, ← (splitAtChar_eq_some h).1]
    exact suffix_take_append (lastSegment_suffix p)

theorem splitParams_eq_self {p : List Char} (h : ';' ∉ p) : splitParams p = (p, []) := by
  rw [splitParams]
  have hseg : ';' ∉ lastSegment p := fun hm => h ((lastSegment_suffix p).subset hm)
  rw [splitAtChar_eq_none.mpr hseg]

theorem splitNetloc_fst_wf (l : List Char) :
    ∀ c ∈ (splitNetloc l).1, notNetlocEnd c = true := by
  intro c hc
  cases l with
  | nil => simp [splitNetloc] at hc
  | cons a t =>
    cases t with
    | nil => simp [splitNetloc] at hc
    | cons b rest =>
      simp only [splitNetloc] at hc
      split at hc
      · exact List.mem_takeWhile_imp hc
      · simp at hc

theorem splitNetloc_snd_head {l : List Char} {x : Char} {xs : List Char}
    (hn : (splitNetloc l).1 ≠ []) (h : (splitNetloc l).2 = x :: xs) :
    notNetlocEnd x = false := by
  cases l with
  | nil => simp [splitNetloc] at hn
  | cons a t =>
    cases t with
    | nil => simp [splitNetloc] at hn
    | cons b rest =>
      simp only [splitNetloc] at hn h
      split at h
      · next hab => exact head_dropWhile_not notNetlocEnd h
      · next hab =>
        rw [if_neg hab] at hn
        exact absurd rfl hn

theorem splitScheme_fst_wf (u : List Char) : (splitScheme u).1 = [] ∨
    ((splitScheme u).1 ≠ [] ∧ (splitScheme u).1.headI.isAlpha = true ∧
     (splitScheme u).1.all isSchemeChar = true ∧
     (splitScheme u).1.map Char.toLower = (splitScheme u).1) := by
  rcases hsp : splitAtChar ':' u with _ | ⟨pre, post⟩
  · simp only [splitScheme, hsp]
    trivial
  · simp only [splitScheme, hsp]
    split
    · next hv =>
      obtain ⟨h1, h2, h3⟩ := hv
      right
      refine ⟨?_, ?_, ?_, map_toLower_idem pre⟩
      · simp only [ne_eq, List.map_eq_nil_iff]
        exact h1
      · cases pre with
        | nil => exact absurd rfl h1
        | cons c cs =>
          simp only [List.map_cons, List.headI_cons]
          exact toLower_isAlpha h2
      · rw [List.all_map]
        rw [List.all_eq_true] at h3 ⊢
        intro c hc
        exact toLower_isSchemeChar (h3 c hc)
    · next hv => exact Or.inl rfl

theorem headI_mem_of_ne {α : Type} [Inhabited α] {l : List α} (h : l ≠ []) : l.headI ∈ l := by
  cases l with
  | nil => exact absurd rfl h
  | cons c cs => exact List.mem_cons_self c cs

theorem urlparse4_eq (u : List Char) : urlparse4 u =
    ⟨(splitScheme u).1,
     (splitNetloc (splitScheme u).2).1,
     (splitParams (splitQuery (splitFragment (splitNetloc (splitScheme u).2).2).1).1).1,
     (splitQuery (splitFragment (splitNetloc (splitScheme u).2).2).1).2⟩ := rfl

theorem urlparse4_scheme_wf (u : List Char) : (urlparse4 u).scheme = [] ∨
    ((urlparse4 u).scheme ≠ [] ∧ (urlparse4 u).scheme.headI.isAlpha = true ∧
     (urlparse4 u).scheme.all isSchemeChar = true ∧
     (urlparse4 u).scheme.map Char.toLower = (urlparse4 u).scheme) := by
  rw [urlparse4_eq]
  exact splitScheme_fst_wf u

theorem urlparse4_netloc_wf (u : List Char) :
    ∀ c ∈ (urlparse4 u).netloc, notNetlocEnd c = true := by
  rw [urlparse4_eq]
  exact splitNetloc_fst_wf _

theorem urlparse4_path_no_question (u : List Char) : '?' ∉ (urlparse4 u).path := by
  rw [urlparse4_eq]
  intro hm
  exact splitQuery_fst_no_question _ ((splitParams_fst_pref _).subset hm)

theorem urlparse4_path_no_hash (u : List Char) : '#' ∉ (urlparse4 u).path := by
  rw [urlparse4_eq]
  intro hm
  exact splitFragment_fst_no_hash _
    ((splitQuery_fst_pref _).subset ((splitParams_fst_pref _).subset hm))

theorem urlparse4_query_no_hash (u : List Char) : '#' ∉ (urlparse4 u).query := by
  rw [urlparse4_eq]
  intro hm
  exact splitFragment_fst_no_hash _ ((splitQuery_snd_suffix _).subset hm)

theorem pipeline_path_shape {L : List Char}
    (hx : ∀ x xs, L = x :: xs → notNetlocEnd x = false)
    (hp : (splitParams (splitQuery (splitFragment L).1).1).1 ≠ []) :
    (splitParams (splitQuery (splitFragment L).1).1).1.headI = '/' := by
  have pre1 := splitParams_fst_pref (splitQuery (splitFragment L).1).1
  have pre2 := splitQuery_fst_pref (splitFragment L).1
  have pre3 := splitFragment_fst_pref L
  have preAll := pre1.trans (pre2.trans pre3)
  have hLne : L ≠ [] := prefix_ne_nil preAll hp
  have hhead := headI_of_pref preAll hp
  obtain ⟨x, xs, hL⟩ : ∃ x xs, L = x :: xs := by
    cases L with
    | nil => exact absurd rfl hLne
    | cons a b => exact ⟨a, b, rfl⟩
  have hx' := hx x xs hL
  have hmem := headI_mem_of_ne hp
  have hq : '?' ∉ (splitParams (splitQuery (splitFragment L).1).1).1 :=
    fun hm => splitQuery_fst_no_question _ (pre1.subset hm)
  have hh : '#' ∉ (splitParams (splitQuery (splitFragment L).1).1).1 :=
    fun hm => splitFragment_fst_no_hash _ (pre2.subset (pre1.subset hm))
  have hPx : (splitParams (splitQuery (splitFragment L).1).1).1.headI = x := by
    rw [← hhead, hL]
    rfl
  have hcase : x = '/' ∨ x = '?' ∨ x = '#' := by
    simp only [notNetlocEnd, Bool.not_eq_false', Bool.or_eq_true, beq_iff_eq] at hx'
    tauto
  rcases hcase with h1 | h1 | h1
  · rw [hPx, h1]
  · rw [hPx, h1] at hmem
    exact absurd hmem hq
  · rw [hPx, h1] at hmem
    exact absurd hmem hh

theorem urlparse4_path_shape (u : List Char) (hn : (urlparse4 u).netloc ≠ []) :
    (urlparse4 u).path = [] ∨ (urlparse4 u).path.headI = '/' := by
  by_cases hp : (urlparse4 u).path = []
  · exact Or.inl hp
  · right
    have hx : ∀ x xs, (splitNetloc (splitScheme u).2).2 = x :: xs →
        notNetlocEnd x = false := by
      intro x xs h
      exact splitNetloc_snd_head hn h
    exact pipeline_path_shape hx hp

/-- The string `normalize_url` rebuilds from the parsed components before
the optional trailing-slash strip. -/
def rebuildUrl (P : UrlParts) : List Char :=
  let r0 := P.scheme ++ ':' :: '/' :: '/' :: (P.netloc ++ P.path)
  if P.query.isEmpty then r0 else r0 ++ '?' :: P.query

theorem normalizeUrl_eq (u : List Char) : normalizeUrl u =
    if (rebuildUrl (urlparse4 u)).getLast? == some '/'
        && decide (1 < (urlparse4 u).path.length)
    then (rebuildUrl (urlparse4 u)).dropLast else rebuildUrl (urlparse4 u) := rfl

theorem splitScheme_append {s : List Char} (v : List Char) (hs1 : s ≠ [])
    (hs2 : s.headI.isAlpha = true) (hs3 : s.all isSchemeChar = true)
    (hs4 : s.map Char.toLower = s) :
    splitScheme (s ++ ':' :: v) = (s, v) := by
  have hns : ':' ∉ s := by
    intro hm
    have hc := (List.all_eq_true.mp hs3) _ hm
    exact absurd hc (by decide)
  simp only [splitScheme, splitAtChar_append v hns]
  rw [if_pos ⟨hs1, hs2, hs3⟩, hs4]

theorem takeWhile_dropWhile_blocked {m : List Char}
    (hm : m = [] ∨ notNetlocEnd m.headI = false) :
    m.takeWhile notNetlocEnd = [] ∧ m.dropWhile notNetlocEnd = m := by
  rcases hm with hm | hm
  · subst hm
    exact ⟨rfl, rfl⟩
  · by_cases hne : m = []
    · subst hne
      exact ⟨rfl, rfl⟩
    · exact ⟨takeWhile_nil_of_head hne hm, dropWhile_self_of_head hne hm⟩

theorem splitNetloc_rebuild_nil {h p : List Char}
    (hh : ∀ c ∈ h, notNetlocEnd c = true) (hp3 : p = [] ∨ p.headI = '/') :
    splitNetloc ('/' :: '/' :: (h ++ p)) = (h, p) := by
  have hb := takeWhile_dropWhile_blocked (m := p) (by
    rcases hp3 with hp | hp
    · exact Or.inl hp
    · refine Or.inr ?_
      rw [hp]
      decide)
  simp [splitNetloc, takeWhile_append_all hh, dropWhile_append_all hh, hb.1, hb.2]

theorem splitNetloc_rebuild_query {h p q : List Char}
    (hh : ∀ c ∈ h, notNetlocEnd c = true) (hp3 : p = [] ∨ p.headI = '/') :
    splitNetloc ('/' :: '/' :: (h ++ (p ++ '?' :: q))) = (h, p ++ '?' :: q) := by
  have hb := takeWhile_dropWhile_blocked (m := p ++ '?' :: q) (by
    by_cases hpn : p = []
    · subst hpn
      refine Or.inr ?_
      rw [List.nil_append]
      rfl
    · refine Or.inr ?_
      rw [headI_of_pref ⟨'?' :: q, rfl⟩ hpn]
      rcases hp3 with hp | hp
      · exact absurd hp hpn
      · rw [hp]
        decide)
  simp [splitNetloc, takeWhile_append_all hh, dropWhile_append_all hh, hb.1, hb.2]

theorem splitFragment_of_no_hash {l : List Char} (h : '#' ∉ l) :
    splitFragment l = (l, []) := by
  rw [splitFragment, splitAtChar_eq_none.mpr h]

theorem splitQuery_of_no_question {l : List Char} (h : '?' ∉ l) :
    splitQuery l = (l, []) := by
  rw [splitQuery, splitAtChar_eq_none.mpr h]

theorem splitQuery_append {a : List Char} (b : List Char) (h : '?' ∉ a) :
    splitQuery (a ++ '?' :: b) = (a, b) := by
  rw [splitQuery, splitAtChar_append b h]

theorem urlparse4_rebuildUrl (P : UrlParts)
    (hs1 : P.scheme ≠ []) (hs2 : P.scheme.headI.isAlpha = true)
    (hs3 : P.scheme.all isSchemeChar = true)
    (hs4 : P.scheme.map Char.toLower = P.scheme)
    (hh : ∀ c ∈ P.netloc, notNetlocEnd c = true)
    (hp1 : '?' ∉ P.path) (hp2 : '#' ∉ P.path)
    (hp3 : P.path = [] ∨ P.path.headI = '/')
    (hpsemi : ';' ∉ P.path)
    (hq : '#' ∉ P.query) :
    urlparse4 (rebuildUrl P) = P := by
  obtain ⟨s, h, p, q⟩ := P
  simp only at hs1 hs2 hs3 hs4 hh hp1 hp2 hp3 hpsemi hq
  by_cases hqe : q.isEmpty = true
  · have hq0 : q = [] := List.isEmpty_iff.mp hqe
    subst hq0
    simp only [rebuildUrl, List.isEmpty_nil, if_true]
    simp only [urlparse4_eq, splitScheme_append _ hs1 hs2 hs3 hs4,
      splitNetloc_rebuild_nil hh hp3, splitFragment_of_no_hash hp2,
      splitQuery_of_no_question hp1, splitParams_eq_self hpsemi]
  · have hM : '#' ∉ p ++ '?' :: q := by
      intro hm
      rcases List.mem_append.mp hm with h1 | h1
      · exact hp2 h1
      · rcases List.mem_cons.mp h1 with h2 | h2
        · exact absurd h2 (by decide)
        · exact hq h2
    simp only [rebuildUrl, if_neg hqe]
    simp only [List.append_assoc, List.cons_append]
    simp only [urlparse4_eq, splitScheme_append _ hs1 hs2 hs3 hs4,
      splitNetloc_rebuild_query hh hp3, splitFragment_of_no_hash hM,
      splitQuery_append q hp1, splitParams_eq_self hpsemi]

theorem headI_dropLast {α : Type} [Inhabited α] {l : List α} (h : 2 ≤ l.length) :
    l.dropLast.headI = l.headI := by
  rcases l with _ | ⟨a, _ | ⟨b, t⟩⟩
  · simp at h
  · simp at h
  · rfl

theorem getLast?_eq_some_decomp {α : Type} : ∀ {l : List α} {a : α},
    l.getLast? = some a → ∃ t, l = t ++ [a] := by
  intro l
  induction l with
  | nil => intro a h; cases h
  | cons c cs ih =>
    intro a h
    cases cs with
    | nil =>
      simp only [List.getLast?_singleton, Option.some.injEq] at h
      exact ⟨[], by rw [h]; rfl⟩
    | cons d ds =>
      rw [List.getLast?_cons_cons] at h
      obtain ⟨t, ht⟩ := ih h
      exact ⟨c :: t, by rw [List.cons_append, ← ht]⟩

theorem suffix_two_of_getLast {l : List Char} {a b : Char}
    (h1 : l.getLast? = some a) (h2 : l.dropLast.getLast? = some b) : [b, a] <:+ l := by
  obtain ⟨t, rfl⟩ := getLast?_eq_some_decomp h1
  rw [List.dropLast_concat] at h2
  obtain ⟨t2, rfl⟩ := getLast?_eq_some_decomp h2
  exact ⟨t2, by simp⟩

theorem cons3_append_eq (s h p : List Char) :
    s ++ ':' :: '/' :: '/' :: (h ++ p) = ((s ++ [':', '/', '/']) ++ h) ++ p := by
  simp [List.append_assoc]

set_option maxRecDepth 100000 in
/-- C9: counterexample. `http://a.com/x//` has a scheme and a netloc, yet
`normalize_url` strips only one trailing slash per application:
the first call yields `http://a.com/x/` and the second strips again,
so normalization is not idempotent on all absolute URLs. -/
theorem c9_counterexample :
    ((urlparse4 ("http://a.com/x//".data)).scheme ≠ [] ∧
     (urlparse4 ("http://a.com/x//".data)).netloc ≠ []) ∧
    normalizeUrl ("http://a.com/x//".data) = "http://a.com/x/".data ∧
    normalizeUrl (normalizeUrl ("http://a.com/x//".data)) ≠
      normalizeUrl ("http://a.com/x//".data) := by
  decide

/-- C9 (amended): `normalize_url` is idempotent on every URL with a scheme
and a netloc whose parsed path carries no `;params` part and which does not
end in a strippable-then-strippable-again slash: if the query is empty the
path must not end in `//`, and a non-empty query must not end in `/`. -/
theorem c9_normalize_url_idempotent_amended (u : List Char)
    (hs : (urlparse4 u).scheme ≠ [])
    (hn : (urlparse4 u).netloc ≠ [])
    (hsemi : ';' ∉ (urlparse4 u).path)
    (hq1 : (urlparse4 u).query = [] → ¬ ['/', '/'] <:+ (urlparse4 u).path)
    (hq2 : (urlparse4 u).query ≠ [] → (urlparse4 u).query.getLast? ≠ some '/') :
    normalizeUrl (normalizeUrl u) = normalizeUrl u := by
  have hp1 := urlparse4_path_no_question u
  have hp2 := urlparse4_path_no_hash u
  have hp3 := urlparse4_path_shape u hn
  have hqh := urlparse4_query_no_hash u
  have hh := urlparse4_netloc_wf u
  rcases urlparse4_scheme_wf u with hbad | ⟨-, hs2, hs3, hs4⟩
  · exact absurd hbad hs
  have RT : urlparse4 (rebuildUrl (urlparse4 u)) = urlparse4 u :=
    urlparse4_rebuildUrl _ hs hs2 hs3 hs4 hh hp1 hp2 hp3 hsemi hqh
  by_cases hC : ((rebuildUrl (urlparse4 u)).getLast? == some '/'
      && decide (1 < (urlparse4 u).path.length)) = true
  · have hC' := hC
    rw [Bool.and_eq_true] at hC'
    have hlast : (rebuildUrl (urlparse4 u)).getLast? = some '/' := by
      have hb := hC'.1
      rwa [beq_iff_eq] at hb
    have hlen : 1 < (urlparse4 u).path.length := of_decide_eq_true hC'.2
    by_cases hqe : (urlparse4 u).query = []
    · have hpne : (urlparse4 u).path ≠ [] := by
        intro he
        rw [he] at hlen
        simp at hlen
      have hhead : (urlparse4 u).path.headI = '/' := by
        rcases hp3 with h3 | h3
        · exact absurd h3 hpne
        · exact h3
      have hR : rebuildUrl (urlparse4 u) = (urlparse4 u).scheme ++ ':' :: '/' :: '/' ::
          ((urlparse4 u).netloc ++ (urlparse4 u).path) := by
        simp only [rebuildUrl, hqe, List.isEmpty_nil]
        rw [if_pos trivial]
      have hRB : rebuildUrl (urlparse4 u) =
          (((urlparse4 u).scheme ++ [':', '/', '/']) ++ (urlparse4 u).netloc) ++
            (urlparse4 u).path := by
        rw [hR]
        exact cons3_append_eq _ _ _
      have hplast : (urlparse4 u).path.getLast? = some '/' := by
        rw [hRB, List.getLast?_append_of_ne_nil _ hpne] at hlast
        exact hlast
      have hstrip : normalizeUrl u =
          (((urlparse4 u).scheme ++ [':', '/', '/']) ++ (urlparse4 u).netloc) ++
            (urlparse4 u).path.dropLast := by
        rw [normalizeUrl_eq u, if_pos hC, hRB, List.dropLast_append_of_ne_nil _ hpne]
      have hp'ne : (urlparse4 u).path.dropLast ≠ [] := by
        intro he
        have hlen2 := congrArg List.length he
        rw [List.length_dropLast] at hlen2
        simp at hlen2
        omega
      have hp'head : (urlparse4 u).path.dropLast.headI = '/' := by
        rw [headI_dropLast (by omega)]
        exact hhead
      have hp'sub : ∀ c, c ∈ (urlparse4 u).path.dropLast → c ∈ (urlparse4 u).path :=
        fun c hc => (List.dropLast_sublist _).subset hc
      have hp'last : (urlparse4 u).path.dropLast.getLast? ≠ some '/' := by
        intro he
        exact (hq1 hqe) (suffix_two_of_getLast hplast he)
      have hnu : normalizeUrl u = rebuildUrl
          ⟨(urlparse4 u).scheme, (urlparse4 u).netloc, (urlparse4 u).path.dropLast, []⟩ := by
        rw [hstrip]
        simp only [rebuildUrl, List.isEmpty_nil]
        rw [if_pos trivial]
        exact (cons3_append_eq _ _ _).symm
      have RT2 : urlparse4 (rebuildUrl
          ⟨(urlparse4 u).scheme, (urlparse4 u).netloc, (urlparse4 u).path.dropLast, []⟩) =
          ⟨(urlparse4 u).scheme, (urlparse4 u).netloc, (urlparse4 u).path.dropLast, []⟩ :=
        urlparse4_rebuildUrl _ hs hs2 hs3 hs4 hh
          (fun hm => hp1 (hp'sub _ hm)) (fun hm => hp2 (hp'sub _ hm))
          (Or.inr hp'head) (fun hm => hsemi (hp'sub _ hm)) (by simp)
      have hR2 : rebuildUrl ⟨(urlparse4 u).scheme, (urlparse4 u).netloc,
          (urlparse4 u).path.dropLast, []⟩ =
          (((urlparse4 u).scheme ++ [':', '/', '/']) ++ (urlparse4 u).netloc) ++
            (urlparse4 u).path.dropLast := by
        simp only [rebuildUrl, List.isEmpty_nil]
        rw [if_pos trivial]
        exact cons3_append_eq _ _ _
      have hfin : ¬(((rebuildUrl ⟨(urlparse4 u).scheme, (urlparse4 u).netloc,
          (urlparse4 u).path.dropLast, []⟩).getLast? == some '/'
          && decide (1 < (urlparse4 u).path.dropLast.length)) = true) := by
        rw [Bool.and_eq_true]
        intro hcc
        have hg := hcc.1
        rw [hR2, List.getLast?_append_of_ne_nil _ hp'ne, beq_iff_eq] at hg
        exact hp'last hg
      rw [hnu, normalizeUrl_eq, RT2, if_neg hfin]
    · exfalso
      have hne : ¬((urlparse4 u).query.isEmpty = true) := fun hcc =>
        hqe (List.isEmpty_iff.mp hcc)
      have hR : rebuildUrl (urlparse4 u) =
          ((urlparse4 u).scheme ++ ':' :: '/' :: '/' ::
            ((urlparse4 u).netloc ++ (urlparse4 u).path)) ++
            '?' :: (urlparse4 u).query := by
        simp only [rebuildUrl]
        rw [if_neg hne]
      rw [hR, List.getLast?_append_of_ne_nil _ (List.cons_ne_nil _ _)] at hlast
      have hsplit : ('?' :: (urlparse4 u).query) = ['?'] ++ (urlparse4 u).query := rfl
      rw [hsplit, List.getLast?_append_of_ne_nil _ hqe] at hlast
      exact hq2 hqe hlast
  · rw [normalizeUrl_eq u, if_neg hC, normalizeUrl_eq, RT, if_neg hC]

set_option maxRecDepth 100000 in
/-- C9 (amended) witness: the side conditions hold at `http://a.com/x` and
normalization is idempotent there. -/
theorem c9_normalize_url_idempotent_amended_witness :
    normalizeUrl (normalizeUrl ("http://a.com/x".data)) =
      normalizeUrl ("http://a.com/x".data) :=
  c9_normalize_url_idempotent_amended ("http://a.com/x".data)
    (by decide) (by decide) (by decide) (fun _ => by decide) (fun hne => absurd rfl hne)

/-! ### URL discovery (`URLDiscovery.discover_urls`, src/crawler.py:167-250)

The BFS loop is embedded as a step function on an explicit state.  The
network fetch (`crawler.arun`) is an oracle `fetch` returning `none` for an
exception or an unsuccessful result and `some links` for a successful crawl
with the given internal hrefs; `urljoin` (Python stdlib, not part of the
repository) is an abstract parameter `join`.  Python's `set`s become lists
used for membership, `depth_map` an association list where assignment
prepends (lookup takes the most recent binding, matching dict overwrite),
and the loop's `continue`s become the early-return branches of the step. -/

/-- `depth_map.get(url, 0)`. -/
def dmGet (m : List (List Char × Nat)) (k : List Char) : Nat :=
  match m.find? (fun e => e.1 == k) with
  | some e => e.2
  | none => 0

/-- `URLDiscovery.extract_domain` (src/crawler.py:141-144). -/
def extractDomain (url : List Char) : List Char :=
  (urlparse4 url).scheme ++ ':' :: '/' :: '/' :: (urlparse4 url).netloc

/-- The mutable state of `discover_urls`, plus a log of fetched URLs. -/
structure DiscoState where
  discovered : List (List Char)
  toVisit : List (List Char)
  visited : List (List Char)
  depthMap : List (List Char × Nat)
  fetched : List (List Char)
deriving DecidableEq

/-- The configuration fields `discover_urls` consumes. -/
structure DiscoConfig where
  maxDepth : Nat
  maxPages : Nat
  includeExternal : Bool
  patterns : List (List Char)
  excludePatterns : List (List Char)

/-- The body of the `for link_data in result.links` loop for one href
(src/crawler.py:211-230). -/
def enqueueOne (cfg : DiscoConfig) (join : List Char → List Char → List Char)
    (startUrl currentUrl : List Char) (d : Nat)
    (st : DiscoState) (link : List Char) : DiscoState :=
  if link.isEmpty then st
  else
    let normalized := normalizeUrl (join currentUrl link)
    if !cfg.includeExternal &&
        !(extractDomain normalized == extractDomain startUrl) then st
    else if normalized ∉ st.visited ∧ normalized ∉ st.toVisit then
      { st with toVisit := st.toVisit ++ [normalized],
                depthMap := (normalized, d + 1) :: st.depthMap }
    else st

/-- The whole link loop. -/
def enqueueLinks (cfg : DiscoConfig) (join : List Char → List Char → List Char)
    (startUrl currentUrl : List Char) (d : Nat)
    (links : List (List Char)) (st : DiscoState) : DiscoState :=
  links.foldl (enqueueOne cfg join startUrl currentUrl d) st

/-- `discovered.add(current)` guarded by the pattern match
(src/crawler.py:205-207). -/
def discoAdmit (cfg : DiscoConfig) (current : List Char) (st : DiscoState) : DiscoState :=
  if matchUrlPattern current cfg.patterns cfg.excludePatterns then
    (if current ∈ st.discovered then st
     else { st with discovered := current :: st.discovered })
  else st

/-- One iteration of the BFS `while` loop (src/crawler.py:179-238): pop the
head, skip it when already visited, abandon it when its recorded depth
exceeds `max_depth`, otherwise mark it visited and fetch it; on success
admit it if it matches the patterns and, below `max_depth`, enqueue its
links. -/
def discoStep (cfg : DiscoConfig) (fetch : List Char → Option (List (List Char)))
    (join : List Char → List Char → List Char) (startUrl : List Char)
    (st : DiscoState) : DiscoState :=
  match st.toVisit with
  | [] => st
  | current :: rest =>
    if current ∈ st.visited then { st with toVisit := rest }
    else if cfg.maxDepth < dmGet st.depthMap current then { st with toVisit := rest }
    else
      match fetch current with
      | none => { st with toVisit := rest, visited := current :: st.visited,
                          fetched := current :: st.fetched }
      | some links =>
        if dmGet st.depthMap current < cfg.maxDepth then
          enqueueLinks cfg join startUrl current (dmGet st.depthMap current) links
            (discoAdmit cfg current
              { st with toVisit := rest, visited := current :: st.visited,
                        fetched := current :: st.fetched })
        else
          discoAdmit cfg current
            { st with toVisit := rest, visited := current :: st.visited,
                      fetched := current :: st.fetched }

/-- The BFS loop with fuel; the loop guard is
`while to_visit and len(discovered) < self.config.max_pages`. -/
def discoRun (cfg : DiscoConfig) (fetch : List Char → Option (List (List Char)))
    (join : List Char → List Char → List Char) (startUrl : List Char) :
    Nat → DiscoState → DiscoState
  | 0, st => st
  | fuel + 1, st =>
    if st.toVisit ≠ [] ∧ st.discovered.length < cfg.maxPages then
      discoRun cfg fetch join startUrl fuel (discoStep cfg fetch join startUrl st)
    else st

/-- The initial state: `to_visit = [start_url]`, `depth_map = {start_url: 0}`. -/
def initDisco (startUrl : List Char) : DiscoState :=
  ⟨[], [startUrl], [], [(startUrl, 0)], []⟩

/-- The frontier invariant: every queued URL and every admitted URL has
recorded depth at most `D`, and admitted URLs have been visited. -/
def DiscoInv (D : Nat) (st : DiscoState) : Prop :=
  (∀ url ∈ st.toVisit, dmGet st.depthMap url ≤ D) ∧
  (∀ url ∈ st.discovered, dmGet st.depthMap url ≤ D) ∧
  (∀ url ∈ st.discovered, url ∈ st.visited)

instance (D : Nat) (st : DiscoState) : Decidable (DiscoInv D st) := by
  unfold DiscoInv
  infer_instance

theorem dmGet_cons_self (m : List (List Char × Nat)) (k : List Char) (v : Nat) :
    dmGet ((k, v) :: m) k = v := by
  simp [dmGet, List.find?_cons_of_pos]

theorem dmGet_cons_ne (m : List (List Char × Nat)) (k k2 : List Char) (v : Nat)
    (h : k2 ≠ k) : dmGet ((k, v) :: m) k2 = dmGet m k2 := by
  unfold dmGet
  have hne : ¬((((k, v) : List Char × Nat).1 == k2) = true) := by
    simp only [beq_iff_eq]
    exact fun he => h he.symm
  rw [@List.find?_cons_of_neg _ (fun e => e.1 == k2) (k, v) m hne]

/-- What the link loop does relative to its entry state `st0`: it only
extends the frontier, every new frontier entry is recorded at depth
`d + 1`, old frontier entries and visited URLs keep their depths, and
nothing else changes. -/
def EnqP (d : Nat) (st0 st : DiscoState) : Prop :=
  st.visited = st0.visited ∧ st.discovered = st0.discovered ∧
  st.fetched = st0.fetched ∧
  (∀ url ∈ st0.toVisit, url ∈ st.toVisit) ∧
  (∀ url ∈ st.toVisit,
     (url ∈ st0.toVisit ∧ dmGet st.depthMap url = dmGet st0.depthMap url) ∨
     dmGet st.depthMap url = d + 1) ∧
  (∀ url ∈ st0.visited, dmGet st.depthMap url = dmGet st0.depthMap url)

theorem enqP_refl (d : Nat) (st0 : DiscoState) : EnqP d st0 st0 :=
  ⟨rfl, rfl, rfl, fun _ h => h, fun url h => Or.inl ⟨h, rfl⟩, fun _ _ => rfl⟩

theorem enqueueOne_enqP (cfg : DiscoConfig) (join : List Char → List Char → List Char)
    (startUrl currentUrl : List Char) (link : List Char) {d : Nat} {st0 st : DiscoState}
    (h : EnqP d st0 st) :
    EnqP d st0 (enqueueOne cfg join startUrl currentUrl d st link) := by
  obtain ⟨h1, h2, h3, h4, h5, h6⟩ := h
  simp only [enqueueOne]
  split
  · exact ⟨h1, h2, h3, h4, h5, h6⟩
  · split
    · exact ⟨h1, h2, h3, h4, h5, h6⟩
    · split
      · next hg =>
        refine ⟨h1, h2, h3, ?_, ?_, ?_⟩
        · intro url hu
          exact List.mem_append.mpr (Or.inl (h4 url hu))
        · intro url hu
          rcases List.mem_append.mp hu with hu | hu
          · have hne : url ≠ normalizeUrl (join currentUrl link) :=
              fun he => hg.2 (he ▸ hu)
            rw [dmGet_cons_ne _ _ _ _ hne]
            exact h5 url hu
          · have he : url = normalizeUrl (join currentUrl link) := by
              simpa using hu
            subst he
            exact Or.inr (dmGet_cons_self _ _ _)
        · intro url hu
          have hvis : url ∈ st.visited := h1 ▸ hu
          have hne : url ≠ normalizeUrl (join currentUrl link) :=
            fun he => hg.1 (he ▸ hvis)
          rw [dmGet_cons_ne _ _ _ _ hne]
          exact h6 url hu
      · exact ⟨h1, h2, h3, h4, h5, h6⟩

theorem enqueueLinks_enqP (cfg : DiscoConfig) (join : List Char → List Char → List Char)
    (startUrl currentUrl : List Char) (links : List (List Char)) {d : Nat}
    {st0 st : DiscoState} (h : EnqP d st0 st) :
    EnqP d st0 (enqueueLinks cfg join startUrl currentUrl d links st) := by
  induction links generalizing st with
  | nil => exact h
  | cons l ls ih =>
    exact ih (enqueueOne_enqP cfg join startUrl currentUrl l h)

theorem discoAdmit_spec (cfg : DiscoConfig) (current : List Char) (st : DiscoState) :
    (discoAdmit cfg current st).toVisit = st.toVisit ∧
    (discoAdmit cfg current st).visited = st.visited ∧
    (discoAdmit cfg current st).depthMap = st.depthMap ∧
    (∀ url ∈ (discoAdmit cfg current st).discovered,
       url = current ∨ url ∈ st.discovered) := by
  unfold discoAdmit
  split
  · split
    · exact ⟨rfl, rfl, rfl, fun url hu => Or.inr hu⟩
    · exact ⟨rfl, rfl, rfl, fun url hu => List.mem_cons.mp hu⟩
  · exact ⟨rfl, rfl, rfl, fun url hu => Or.inr hu⟩

theorem enqP_inv {D d : Nat} {st0 st : DiscoState} (hP : EnqP d st0 st)
    (hI : DiscoInv D st0) (hd : d + 1 ≤ D) : DiscoInv D st := by
  obtain ⟨p1, p2, -, -, p5, p6⟩ := hP
  obtain ⟨i1, i2, i3⟩ := hI
  refine ⟨?_, ?_, ?_⟩
  · intro url hu
    rcases p5 url hu with ⟨hu0, he⟩ | he
    · rw [he]
      exact i1 _ hu0
    · rw [he]
      exact hd
  · intro url hu
    have hu0 : url ∈ st0.discovered := p2 ▸ hu
    have hv := i3 url hu0
    rw [p6 url hv]
    exact i2 url hu0
  · intro url hu
    rw [p1]
    exact i3 url (p2 ▸ hu)

theorem discoAdmit_inv {cfg : DiscoConfig} {current : List Char} {st : DiscoState}
    (h : DiscoInv cfg.maxDepth st) (hd : dmGet st.depthMap current ≤ cfg.maxDepth)
    (hv : current ∈ st.visited) :
    DiscoInv cfg.maxDepth (discoAdmit cfg current st) := by
  obtain ⟨h1, h2, h3⟩ := h
  obtain ⟨a1, a2, a3, a4⟩ := discoAdmit_spec cfg current st
  refine ⟨?_, ?_, ?_⟩
  · intro url hu
    rw [a3]
    exact h1 url (a1 ▸ hu)
  · intro url hu
    rw [a3]
    rcases a4 url hu with rfl | hu2
    · exact hd
    · exact h2 url hu2
  · intro url hu
    rw [a2]
    rcases a4 url hu with rfl | hu2
    · exact hv
    · exact h3 url hu2

theorem discoStep_inv (cfg : DiscoConfig) (fetch : List Char → Option (List (List Char)))
    (join : List Char → List Char → List Char) (startUrl : List Char) {st : DiscoState}
    (h : DiscoInv cfg.maxDepth st) :
    DiscoInv cfg.maxDepth (discoStep cfg fetch join startUrl st) := by
  obtain ⟨h1, h2, h3⟩ := h
  unfold discoStep
  split
  · exact ⟨h1, h2, h3⟩
  · next current rest heq =>
    have h1r : ∀ url ∈ rest, dmGet st.depthMap url ≤ cfg.maxDepth := by
      intro url hu
      refine h1 url ?_
      rw [heq]
      exact List.mem_cons_of_mem current hu
    have h1c : dmGet st.depthMap current ≤ cfg.maxDepth ∨
        cfg.maxDepth < dmGet st.depthMap current := by
      omega
    split
    · exact ⟨h1r, h2, h3⟩
    · next hnv =>
      split
      · exact ⟨h1r, h2, h3⟩
      · next hod =>
        have hdle : dmGet st.depthMap current ≤ cfg.maxDepth := Nat.le_of_not_lt hod
        split
        · exact ⟨h1r, h2, fun url hu => List.mem_cons_of_mem _ (h3 url hu)⟩
        · next links hfetch =>
          have hI2 : DiscoInv cfg.maxDepth
              { st with toVisit := rest, visited := current :: st.visited,
                        fetched := current :: st.fetched } :=
            ⟨h1r, h2, fun url hu => List.mem_cons_of_mem _ (h3 url hu)⟩
          have hI3 : DiscoInv cfg.maxDepth (discoAdmit cfg current
              { st with toVisit := rest, visited := current :: st.visited,
                        fetched := current :: st.fetched }) :=
            discoAdmit_inv hI2 hdle (List.mem_cons_self _ _)
          split
          · next hlt =>
            exact enqP_inv (enqueueLinks_enqP cfg join startUrl current links
              (enqP_refl _ _)) hI3 (Nat.succ_le_of_lt hlt)
          · exact hI3

theorem discoRun_inv (cfg : DiscoConfig) (fetch : List Char → Option (List (List Char)))
    (join : List Char → List Char → List Char) (startUrl : List Char) (fuel : Nat)
    {st : DiscoState} (h : DiscoInv cfg.maxDepth st) :
    DiscoInv cfg.maxDepth (discoRun cfg fetch join startUrl fuel st) := by
  induction fuel generalizing st with
  | zero => exact h
  | succ n ih =>
    unfold discoRun
    split
    · exact ih (discoStep_inv cfg fetch join startUrl h)
    · exact h

theorem initDisco_inv (D : Nat) (startUrl : List Char) :
    DiscoInv D (initDisco startUrl) := by
  refine ⟨?_, ?_, ?_⟩
  · intro url hu
    have he : url = startUrl := by simpa [initDisco] using hu
    rw [he]
    simp only [initDisco]
    rw [dmGet_cons_self [] startUrl 0]
    exact Nat.zero_le D
  · intro url hu
    simp [initDisco] at hu
  · intro url hu
    simp [initDisco] at hu

/-- C7: in every discovery run with maximum depth `max_depth`, (1) starting
from the initial frontier, after any number of loop iterations no queued or
admitted URL has recorded depth above `max_depth` (and admitted URLs were
visited); (2) whenever a dequeued, unvisited, within-depth URL is fetched
successfully, every URL on the resulting frontier is either a previously
queued one or is recorded at the parent's depth plus one; (3) a dequeued
URL whose recorded depth exceeds `max_depth` is abandoned: the step only
drops it from the frontier, leaving discovered, visited, the depth map and
the fetch log untouched. -/
theorem c7_discovery_depth_invariant (cfg : DiscoConfig)
    (fetch : List Char → Option (List (List Char)))
    (join : List Char → List Char → List Char) (startUrl : List Char) :
    (∀ fuel, DiscoInv cfg.maxDepth
        (discoRun cfg fetch join startUrl fuel (initDisco startUrl))) ∧
    (∀ st current rest links,
        st.toVisit = current :: rest → current ∉ st.visited →
        ¬(cfg.maxDepth < dmGet st.depthMap current) → fetch current = some links →
        ∀ url ∈ (discoStep cfg fetch join startUrl st).toVisit,
          url ∈ rest ∨
          dmGet (discoStep cfg fetch join startUrl st).depthMap url =
            dmGet st.depthMap current + 1) ∧
    (∀ st current rest,
        st.toVisit = current :: rest → current ∉ st.visited →
        cfg.maxDepth < dmGet st.depthMap current →
        discoStep cfg fetch join startUrl st = { st with toVisit := rest }) := by
  refine ⟨fun fuel => discoRun_inv cfg fetch join startUrl fuel (initDisco_inv _ _),
    ?_, ?_⟩
  · intro st current rest links heq hnv hnd hfetch url hu
    have hstep : discoStep cfg fetch join startUrl st =
        (if dmGet st.depthMap current < cfg.maxDepth then
          enqueueLinks cfg join startUrl current (dmGet st.depthMap current) links
            (discoAdmit cfg current
              { st with toVisit := rest, visited := current :: st.visited,
                        fetched := current :: st.fetched })
        else discoAdmit cfg current
              { st with toVisit := rest, visited := current :: st.visited,
                        fetched := current :: st.fetched }) := by
      simp only [discoStep, heq]
      rw [if_neg hnv, if_neg hnd, hfetch]
    rw [hstep] at hu ⊢
    by_cases hlt : dmGet st.depthMap current < cfg.maxDepth
    · rw [if_pos hlt] at hu ⊢
      obtain ⟨-, -, -, -, p5, -⟩ := enqueueLinks_enqP cfg join startUrl current links
        (enqP_refl (dmGet st.depthMap current) (discoAdmit cfg current
          { st with toVisit := rest, visited := current :: st.visited,
                    fetched := current :: st.fetched }))
      rcases p5 url hu with ⟨hu0, -⟩ | he
      · left
        have ha := (discoAdmit_spec cfg current
          { st with toVisit := rest, visited := current :: st.visited,
                    fetched := current :: st.fetched }).1
        rw [ha] at hu0
        exact hu0
      · right
        exact he
    · rw [if_neg hlt] at hu
      left
      have ha := (discoAdmit_spec cfg current
        { st with toVisit := rest, visited := current :: st.visited,
                  fetched := current :: st.fetched }).1
      rw [ha] at hu
      exact hu
  · intro st current rest heq hnv hgt
    simp only [discoStep, heq]
    rw [if_neg hnv, if_pos hgt]

/-- C7 witness: the run invariant after three iterations from a concrete
seed, and the concrete abandonment of an over-depth queued URL. -/
theorem c7_discovery_depth_invariant_witness :
    DiscoInv 1 (discoRun ⟨1, 10, true, [], []⟩ (fun _ => some []) (fun _ l => l)
        ("http://a.com".data) 3 (initDisco ("http://a.com".data))) ∧
    discoStep ⟨1, 10, true, [], []⟩ (fun _ => some []) (fun _ l => l)
        ("http://a.com".data)
        ⟨[], ["http://b.com".data], [], [("http://b.com".data, 5)], []⟩ =
      { (⟨[], ["http://b.com".data], [], [("http://b.com".data, 5)], []⟩ : DiscoState)
        with toVisit := [] } := by
  have H := c7_discovery_depth_invariant ⟨1, 10, true, [], []⟩ (fun _ => some [])
    (fun _ l => l) ("http://a.com".data)
  refine ⟨H.1 3, ?_⟩
  exact H.2.2 ⟨[], ["http://b.com".data], [], [("http://b.com".data, 5)], []⟩
    ("http://b.com".data) [] rfl (by simp) (by decide)

/-! ### Batch crawling (`ContentCrawler.crawl_single_url` / `crawl_urls`,
src/crawler.py:418-599)

The network call `crawler.arun` is an oracle: `ok markdown title
cleanedHtml` models a successful result (an absent or falsy `cleaned_html`
is `[]`), `fail msg` a result with `success == False`, and `exn msg` an
exception raised inside the `try` block.  File output and the progress
callback are omitted; `crawl_urls` records one result per URL (each
gathered task appends exactly once) and the summary counts the successes
and failures among them (src/crawler.py:580-590). -/

inductive ArunResult where
  | ok (markdown title cleanedHtml : List Char)
  | fail (msg : List Char)
  | exn (msg : List Char)
deriving DecidableEq

/-- The per-URL record that `crawl_single_url` returns (restricted to the
fields the summary consumes). -/
structure CrawlResult where
  url : List Char
  success : Bool
  contentLength : Nat
  error : Option (List Char)
deriving DecidableEq

/-- `ContentCrawler.crawl_single_url` with the default `ContentCleaner`
(src/crawler.py:418-534): on success the markdown is cleaned and, when the
stripped result is shorter than 100 characters, replaced by the
`cleaned_html` fallback or a placeholder; a failed result or an exception
becomes a per-URL failure record. -/
def crawlSingleUrl (arun : List Char → ArunResult) (url : List Char) : CrawlResult :=
  match arun url with
  | .ok md title ch =>
    let mc0 := cleanMarkdownContent md title
    let mc := if (pstrip mc0).length < 100 then
        (if ch ≠ [] then
          ("[Note: Minimal markdown extracted, showing cleaned content]\n\n".data) ++ ch
         else if mc0.isEmpty then
          "[No substantial content could be extracted from this page]".data
         else mc0)
      else mc0
    ⟨url, true, mc.length, none⟩
  | .fail msg => ⟨url, false, 0, some ("Crawl failed: ".data ++ msg)⟩
  | .exn msg => ⟨url, false, 0, some ("Exception: ".data ++ msg)⟩

/-- The `self.failed_urls.append((url, error_msg))` entry produced for a
URL, if any. -/
def crawlFailedEntry (arun : List Char → ArunResult) (url : List Char) :
    Option (List Char × List Char) :=
  match arun url with
  | .ok _ _ _ => none
  | .fail msg => some (url, "Crawl failed: ".data ++ msg)
  | .exn msg => some (url, "Exception: ".data ++ msg)

/-- The fields of the final summary of `crawl_urls`
(src/crawler.py:580-590). -/
structure CrawlSummary where
  totalUrls : Nat
  successful : Nat
  failed : Nat
  totalContentLength : Nat
  results : List CrawlResult
  failedUrls : List (List Char × List Char)
deriving DecidableEq

/-- `ContentCrawler.crawl_urls`: one result per URL, then the summary. -/
def crawlUrls (arun : List Char → ArunResult) (urls : List (List Char)) : CrawlSummary :=
  let results := urls.map (crawlSingleUrl arun)
  let successful := results.filter (fun r => r.success)
  let failed := results.filter (fun r => !r.success)
  ⟨urls.length, successful.length, failed.length,
   (successful.map (fun r => r.contentLength)).sum,
   results, urls.filterMap (crawlFailedEntry arun)⟩

theorem filter_partition_length {α : Type} (p : α → Bool) (l : List α) :
    (l.filter p).length + (l.filter (fun x => !p x)).length = l.length := by
  induction l with
  | nil => rfl
  | cons a t ih =>
    by_cases h : p a = true
    · simp only [List.filter_cons, h, Bool.not_true, List.length_cons, if_true,
        Bool.false_eq_true, if_false]
      omega
    · have hf : p a = false := by
        revert h
        cases p a <;> simp
      simp only [List.filter_cons, hf, Bool.not_false, List.length_cons, if_true,
        Bool.false_eq_true, if_false]
      omega

theorem crawlSingleUrl_url (arun : List Char → ArunResult) (url : List Char) :
    (crawlSingleUrl arun url).url = url := by
  cases h : arun url <;> simp [crawlSingleUrl, h]

/-- A concrete 5-URL batch in which exactly the third URL raises. -/
def batchExampleUrls : List (List Char) :=
  ["http://s.com/1", "http://s.com/2", "http://s.com/3", "http://s.com/4",
   "http://s.com/5"].map String.data

/-- The oracle for the concrete batch: URL 3 raises, the rest succeed. -/
def batchExampleArun (u : List Char) : ArunResult :=
  if u = "http://s.com/3".data then ArunResult.exn ("boom".data)
  else ArunResult.ok ("A plain paragraph of content.".data) ("T".data) []

/-- C8: a per-URL fetch exception is captured, never propagated: for every
URL list, the batch records exactly one result per URL in order (so no
failure aborts the rest), the summary's successful and failed counts sum
to the number of URLs, and an exception on a URL yields that URL's failure
record in the results and in `failed_urls`. -/
theorem c8_batch_failure_isolation (arun : List Char → ArunResult)
    (urls : List (List Char)) :
    ((crawlUrls arun urls).results.map (fun r => r.url) = urls) ∧
    ((crawlUrls arun urls).successful + (crawlUrls arun urls).failed = urls.length) ∧
    (∀ url ∈ urls, ∀ msg, arun url = ArunResult.exn msg →
        (⟨url, false, 0, some ("Exception: ".data ++ msg)⟩ : CrawlResult) ∈
          (crawlUrls arun urls).results ∧
        (url, "Exception: ".data ++ msg) ∈ (crawlUrls arun urls).failedUrls) := by
  refine ⟨?_, ?_, ?_⟩
  · show (urls.map (crawlSingleUrl arun)).map (fun r => r.url) = urls
    rw [List.map_map]
    have hc : ∀ u ∈ urls, ((fun r => r.url) ∘ crawlSingleUrl arun) u = u :=
      fun u _ => crawlSingleUrl_url arun u
    rw [List.map_congr_left hc]
    exact List.map_id urls
  · have hp := filter_partition_length (fun r => r.success)
      (urls.map (crawlSingleUrl arun))
    rw [List.length_map] at hp
    exact hp
  · intro url hu msg hexn
    constructor
    · have hmem := List.mem_map_of_mem (crawlSingleUrl arun) hu
      have he : crawlSingleUrl arun url =
          ⟨url, false, 0, some ("Exception: ".data ++ msg)⟩ := by
        simp [crawlSingleUrl, hexn]
      rw [he] at hmem
      exact hmem
    · refine List.mem_filterMap.mpr ⟨url, hu, ?_⟩
      simp [crawlFailedEntry, hexn]

set_option maxRecDepth 1000000 in
/-- C8 witness: in the concrete 5-URL batch with one raising URL, the
structural conclusions instantiate, and the summary reads 4 successes and
exactly 1 failure, summing to 5. -/
theorem c8_batch_failure_isolation_witness :
    ((crawlUrls batchExampleArun batchExampleUrls).results.map (fun r => r.url) =
       batchExampleUrls ∧
     (crawlUrls batchExampleArun batchExampleUrls).successful +
       (crawlUrls batchExampleArun batchExampleUrls).failed =
         batchExampleUrls.length ∧
     ("http://s.com/3".data, "Exception: boom".data) ∈
       (crawlUrls batchExampleArun batchExampleUrls).failedUrls) ∧
    (crawlUrls batchExampleArun batchExampleUrls).successful = 4 ∧
    (crawlUrls batchExampleArun batchExampleUrls).failed = 1 := by
  have H := c8_batch_failure_isolation batchExampleArun batchExampleUrls
  refine ⟨⟨H.1, H.2.1, ?_⟩, by decide, by decide⟩
  exact (H.2.2 ("http://s.com/3".data) (by decide) ("boom".data) (by decide)).2

/-! ### `ConfigurableContentCleaner` (src/content_filters.py:344-465)

Selector extraction (`SelectorExtractor`, external HTML parsing) is an
oracle: `clean_with_selectors` receives the already-extracted
`selector_content` as an `Option` (`none` for `None`, `some []` for a
falsy empty string). -/

/-- The cleaner fields that the profile machinery and
`clean_with_selectors` consume. -/
structure CCleaner where
  navIndicators : List (List Char)
  footerIndicators : List (List Char)
  skipPatterns : List (List Char)
  minContentLength : Nat
  cleaningProfile : List Char
deriving DecidableEq

/-- `_apply_cleaning_profile` (src/content_filters.py:404-415): `strict`
forces `min_content_length = 200` and extends the indicator lists,
`minimal` forces 50, anything else changes nothing. -/
def applyCleaningProfile (c : CCleaner) (profile : List Char) : CCleaner :=
  if profile = "strict".data then
    { c with minContentLength := 200,
             navIndicators := c.navIndicators ++
               (["menu", "nav", "sidebar", "header", "footer"].map String.data),
             skipPatterns := c.skipPatterns ++
               (["advertisement", "sponsored", "promotion"].map String.data) }
  else if profile = "minimal".data then { c with minContentLength := 50 }
  else c

/-- `ConfigurableContentCleaner.__init__` (src/content_filters.py:347-402):
base lists extended with the custom patterns, the caller's
`min_content_length` stored, then the profile applied (so a profile's
threshold overrides the caller's). -/
def mkConfigurableCleaner (customNav customFooter customSkip : List (List Char))
    (minContentLength : Nat) (cleaningProfile : List Char) : CCleaner :=
  applyCleaningProfile
    { navIndicators := baseNavIndicators ++ customNav,
      footerIndicators := baseFooterIndicators ++ customFooter,
      skipPatterns := baseSkipPatterns ++ customSkip,
      minContentLength := minContentLength,
      cleaningProfile := cleaningProfile } cleaningProfile

/-- `clean_with_selectors` (src/content_filters.py:445-465): keep the
selector-extracted content when it is truthy and at least
`min_content_length` long, otherwise fall back to cleaning the markdown. -/
def cleanWithSelectors (c : CCleaner) (selectorContent : Option (List Char))
    (markdown title : List Char) : List Char :=
  match selectorContent with
  | some sc =>
    if sc ≠ [] ∧ c.minContentLength ≤ sc.length then
      cleanMarkdownContentWith c.navIndicators c.footerIndicators c.skipPatterns sc title
    else
      cleanMarkdownContentWith c.navIndicators c.footerIndicators c.skipPatterns
        markdown title
  | none =>
    cleanMarkdownContentWith c.navIndicators c.footerIndicators c.skipPatterns
      markdown title

/-- C10: the `strict` profile always sets `min_content_length` to 200 and
`minimal` to 50, whatever the caller passed; `moderate` keeps the caller's
value; and this stored threshold is exactly the bound
`clean_with_selectors` compares the selector-extracted content against
when choosing between it and the markdown fallback. -/
theorem c10_cleaning_profiles (customNav customFooter customSkip : List (List Char))
    (minLen : Nat) (sc md title : List Char) :
    ((mkConfigurableCleaner customNav customFooter customSkip minLen
        ("strict".data)).minContentLength = 200) ∧
    ((mkConfigurableCleaner customNav customFooter customSkip minLen
        ("minimal".data)).minContentLength = 50) ∧
    ((mkConfigurableCleaner customNav customFooter customSkip minLen
        ("moderate".data)).minContentLength = minLen) ∧
    (∀ c : CCleaner, sc ≠ [] → c.minContentLength ≤ sc.length →
       cleanWithSelectors c (some sc) md title =
         cleanMarkdownContentWith c.navIndicators c.footerIndicators
           c.skipPatterns sc title) ∧
    (∀ c : CCleaner, sc.length < c.minContentLength →
       cleanWithSelectors c (some sc) md title =
         cleanMarkdownContentWith c.navIndicators c.footerIndicators
           c.skipPatterns md title) := by
  refine ⟨?_, ?_, ?_, ?_, ?_⟩
  · simp [mkConfigurableCleaner, applyCleaningProfile]
  · simp [mkConfigurableCleaner, applyCleaningProfile]
  · simp [mkConfigurableCleaner, applyCleaningProfile]
  · intro c hne hle
    simp only [cleanWithSelectors]
    rw [if_pos ⟨hne, hle⟩]
  · intro c hlt
    simp only [cleanWithSelectors]
    rw [if_neg (fun hcc => (Nat.not_le.mpr hlt) hcc.2)]

set_option maxRecDepth 1000000 in
/-- C10 witness: a caller-supplied threshold of 100 under `strict` becomes
200, and 4-character selector content falls below it, so the markdown
fallback is cleaned. -/
theorem c10_cleaning_profiles_witness :
    (mkConfigurableCleaner [] [] [] 100 ("strict".data)).minContentLength = 200 ∧
    cleanWithSelectors (mkConfigurableCleaner [] [] [] 100 ("strict".data))
        (some ("tiny".data)) ("Some real content here.".data) ("T".data) =
      cleanMarkdownContentWith
        (mkConfigurableCleaner [] [] [] 100 ("strict".data)).navIndicators
        (mkConfigurableCleaner [] [] [] 100 ("strict".data)).footerIndicators
        (mkConfigurableCleaner [] [] [] 100 ("strict".data)).skipPatterns
        ("Some real content here.".data) ("T".data) := by
  have H := c10_cleaning_profiles [] [] [] 100 ("tiny".data)
    ("Some real content here.".data) ("T".data)
  exact ⟨H.1, H.2.2.2.2 _ (by decide)⟩
